import Mathlib

/-!
# Raytracer: a shallow embedding of the rendering core

The C++ sources (`vec3.h`, `ray.h`, `interval.h`, `hittable.h`, `hittable_list.h`,
`material.h`, `camera.h`) are embedded as Lean definitions.

Conventions of the embedding.

* A C++ `double` is an element of a linearly ordered field `F`: arithmetic is exact, there is
  no rounding, no NaN and no overflow.  All definitions are polymorphic in `F` and computable;
  they can be run on `ℚ` and reasoned about on `ℝ`.
* `std::sqrt` is a parameter `sqrt : F → F`.  Theorems that depend on what a square root is
  assume `IsSqrt sqrt`; `Real.sqrt` satisfies it.
* The bounds of an `interval` may be `+infinity` or `-infinity` (`utils.h`), so they live in
  `ext F = WithBot (WithTop F)`; a finite double `x` is the bound `ext.of x`.
* An out-parameter written by a function is part of the value the function returns.
* The random source is an external collaborator: a function that draws from it receives the
  drawn values as arguments, and `camera.ray_color` threads an abstract random state.
* Virtual dispatch (`hittable::hit`, `material::scatter`) is a function argument.
* `tan` of `<cmath>` and `degrees_to_radians` of utils.h are arguments of `camera.initialized`;
  an `int` is an `Int`, and `static_cast<int>` truncates toward zero.
-/

namespace Raytracer

variable {F : Type} [LinearOrderedField F]

/-! ## vec3.h -/

/-- The class `vec3`: three doubles `e[0]`, `e[1]`, `e[2]`, read through `x()`, `y()`, `z()`. -/
@[ext]
structure vec3 (F : Type) where
  x : F
  y : F
  z : F
  deriving DecidableEq

/-- The aliases `point3` (vec3.h) and `color` (color.h). -/
abbrev point3 (F : Type) := vec3 F

/-- The alias `color` of color.h. -/
abbrev color (F : Type) := vec3 F

/-- The default constructor `vec3() : e{0, 0, 0}`. -/
instance : Zero (vec3 F) := ⟨⟨0, 0, 0⟩⟩

/-- Unary `operator-`. -/
instance : Neg (vec3 F) := ⟨fun v => ⟨-v.x, -v.y, -v.z⟩⟩

/-- The `operator+(u, v)`. -/
instance : Add (vec3 F) := ⟨fun u v => ⟨u.x + v.x, u.y + v.y, u.z + v.z⟩⟩

/-- The `operator-(u, v)`. -/
instance : Sub (vec3 F) := ⟨fun u v => ⟨u.x - v.x, u.y - v.y, u.z - v.z⟩⟩

/-- The component-wise `operator*(u, v)`. -/
instance : Mul (vec3 F) := ⟨fun u v => ⟨u.x * v.x, u.y * v.y, u.z * v.z⟩⟩

/-- The scalar product `operator*(double t, v)`, written `t • v`. -/
instance : SMul F (vec3 F) := ⟨fun t v => ⟨t * v.x, t * v.y, t * v.z⟩⟩

/-- The `operator/(v, double t)`, which returns `(1 / t) * v`. -/
instance : HDiv (vec3 F) F (vec3 F) := ⟨fun v t => (1 / t) • v⟩

/-- The member `length_squared()`. -/
def vec3.length_squared (v : vec3 F) : F := v.x * v.x + v.y * v.y + v.z * v.z

/-- The member `length()`. -/
def vec3.length (sqrt : F → F) (v : vec3 F) : F := sqrt v.length_squared

/-- The member `near_zero()`, with `s = 1e-8`. -/
def vec3.near_zero (v : vec3 F) : Bool :=
  let s : F := 1 / 100000000
  decide (|v.x| < s) && decide (|v.y| < s) && decide (|v.z| < s)

/-- The function `dot(u, v)`. -/
def dot (u v : vec3 F) : F := u.x * v.x + u.y * v.y + u.z * v.z

/-- The function `cross(u, v)`. -/
def cross (u v : vec3 F) : vec3 F :=
  ⟨u.y * v.z - u.z * v.y, u.z * v.x - u.x * v.z, u.x * v.y - u.y * v.x⟩

/-- The function `unit_vector(v) = v / v.length()`. -/
def unit_vector (sqrt : F → F) (v : vec3 F) : vec3 F := v / v.length sqrt

/-- The function `reflect(v, n) = v - 2 * dot(v, n) * n`. -/
def reflect (v n : vec3 F) : vec3 F := v - (2 * dot v n) • n

/-- The function `refract(uv, n, etai_over_etat)`. -/
def refract (sqrt : F → F) (uv n : vec3 F) (etai_over_etat : F) : vec3 F :=
  let cos_theta := min (dot (-uv) n) 1
  let r_out_perp := etai_over_etat • (uv + cos_theta • n)
  let r_out_parallel := (-sqrt |1 - r_out_perp.length_squared|) • n
  r_out_perp + r_out_parallel

/-- What the embedding asks of `std::sqrt` on the non-negative doubles. -/
structure IsSqrt (sqrt : F → F) : Prop where
  nonneg : ∀ x, 0 ≤ x → 0 ≤ sqrt x
  mul_self : ∀ x, 0 ≤ x → sqrt x * sqrt x = x

/-! ## ray.h -/

/-- The class `ray`: an origin and a direction. -/
structure ray (F : Type) where
  orig : point3 F
  dir : vec3 F
  deriving DecidableEq

/-- The accessor `origin()`. -/
def ray.origin (r : ray F) : point3 F := r.orig

/-- The accessor `direction()`. -/
def ray.direction (r : ray F) : vec3 F := r.dir

/-- The member `at(t) = orig + t * dir`. -/
def ray.at' (r : ray F) (t : F) : point3 F := r.orig + t • r.dir

/-! ## interval.h -/

/-- A double used as an interval bound: finite, `+infinity` (`⊤`) or `-infinity` (`⊥`). -/
abbrev ext (F : Type) := WithBot (WithTop F)

/-- A finite double as a bound. -/
def ext.of (x : F) : ext F := ((x : WithTop F) : WithBot (WithTop F))

/-- The constant `infinity` of utils.h. -/
def infinity : ext F := ((⊤ : WithTop F) : WithBot (WithTop F))

/-- The class `interval`. -/
structure interval (F : Type) where
  min : ext F
  max : ext F

/-- The member `contains(x)`: `min <= x && x <= max`. -/
def interval.contains (i : interval F) (x : F) : Bool :=
  decide (i.min ≤ ext.of x) && decide (ext.of x ≤ i.max)

/-- The member `surrounds(x)`: `min < x && x < max`. -/
def interval.surrounds (i : interval F) (x : F) : Bool :=
  decide (i.min < ext.of x) && decide (ext.of x < i.max)

/-- The static object `empty(+infinity, -infinity)`. -/
def interval.empty : interval F := ⟨infinity, ⊥⟩

/-- The static object `universe(-infinity, +infinity)`. -/
def interval.universe : interval F := ⟨⊥, infinity⟩

/-! ## hittable.h -/

/-- The class `hit_record`; `M` is what `shared_ptr<material>` points to. -/
structure hit_record (F M : Type) where
  p : point3 F
  normal : vec3 F
  mat : M
  t : F
  front_face : Bool

/-- The member `set_face_normal(r, outward_normal)`: it writes `front_face` and `normal`. -/
def hit_record.set_face_normal {M : Type} (rec : hit_record F M) (r : ray F)
    (outward_normal : vec3 F) : hit_record F M :=
  let front_face : Bool := decide (dot r.direction outward_normal < 0)
  { rec with
    front_face := front_face
    normal := if front_face then outward_normal else -outward_normal }

/-- The abstract class `hittable`: its virtual `hit(r, ray_t, rec)` returns `some rec` when it
returns true and has written `rec`, and `none` when it returns false. -/
abbrev hittable (F M : Type) := ray F → interval F → Option (hit_record F M)

/-! ## hittable_list.h -/

/-- The class `hittable_list`: the vector `objects`. -/
structure hittable_list (F M : Type) where
  objects : List (hittable F M)

/-- The method `add(object)`: `objects.push_back(object)`. -/
def hittable_list.add {M : Type} (l : hittable_list F M) (object : hittable F M) :
    hittable_list F M :=
  ⟨l.objects ++ [object]⟩

/-- The method `clear()`: `objects.clear()`. -/
def hittable_list.clear {M : Type} (_l : hittable_list F M) : hittable_list F M := ⟨[]⟩

/-- The locals of `hittable_list::hit` that the loop updates, and the out-parameter `rec`. -/
structure hit_state (F M : Type) where
  hit_anything : Bool
  closest_so_far : ext F
  rec_out : Option (hit_record F M)

/-- One iteration of the loop of `hittable_list::hit` for the member `object`. -/
def hittable_list.hit_step {M : Type} (r : ray F) (ray_t : interval F)
    (st : hit_state F M) (object : hittable F M) : hit_state F M :=
  match object r ⟨ray_t.min, st.closest_so_far⟩ with
  | some temp_rec =>
    { hit_anything := true, closest_so_far := ext.of temp_rec.t, rec_out := some temp_rec }
  | none => st

/-- The method `hittable_list::hit(r, ray_t, rec)`. -/
def hittable_list.hit {M : Type} (l : hittable_list F M) : hittable F M := fun r ray_t =>
  let st := l.objects.foldl (hittable_list.hit_step r ray_t)
    { hit_anything := false, closest_so_far := ray_t.max, rec_out := none }
  if st.hit_anything then st.rec_out else none

/-! ## sphere.h -/

/-- Modelled from the spec: the class `sphere` of sphere.h, which is not among the sources
(spec 3: center point, scalar radius, material handle). -/
structure sphere (F M : Type) where
  center : point3 F
  radius : F
  mat : M

/-- Modelled from the spec: the record that `sphere::hit` of sphere.h writes for the root
`root` (spec 4.1: point, outward unit normal `(point - center) / radius`, orientation through
`set_face_normal`, material handle). -/
def sphere.record {M : Type} (s : sphere F M) (r : ray F) (root : F) : hit_record F M :=
  let p := r.at' root
  let outward_normal := (p - s.center) / s.radius
  hit_record.set_face_normal
    { p := p, normal := outward_normal, mat := s.mat, t := root, front_face := false }
    r outward_normal

/-- Modelled from the spec: `sphere::hit` of sphere.h, which is not among the sources
(spec 4.1: `a = |dir|²`, `h = dot(dir, center - origin)`, `c = |center - origin|² - radius²`,
discriminant `h² - a·c`; no hit if it is negative; otherwise the roots `(h - sqrt_d) / a` then
`(h + sqrt_d) / a` are tried and the first one strictly inside the interval is returned). -/
def sphere.hit {M : Type} (sqrt : F → F) (s : sphere F M) : hittable F M := fun r ray_t =>
  let oc := s.center - r.origin
  let a := r.direction.length_squared
  let h := dot r.direction oc
  let c := oc.length_squared - s.radius * s.radius
  let discriminant := h * h - a * c
  if discriminant < 0 then none
  else
    let sqrt_d := sqrt discriminant
    let root := (h - sqrt_d) / a
    if ray_t.surrounds root then some (s.record r root)
    else
      let root := (h + sqrt_d) / a
      if ray_t.surrounds root then some (s.record r root) else none

/-! ## material.h -/

/-- What `material::scatter` hands back: the returned bool and the out-parameters
`attenuation` and `scattered`. -/
structure scatter_result (F : Type) where
  ok : Bool
  attenuation : color F
  scattered : ray F

/-- The class `lambertian`. -/
structure lambertian (F : Type) where
  albedo : color F

/-- The method `lambertian::scatter`; `d` is the value of `random_unit_vector()`. -/
def lambertian.scatter {M : Type} (m : lambertian F) (_r_in : ray F) (rec : hit_record F M)
    (d : vec3 F) : scatter_result F :=
  let scatter_direction := rec.normal + d
  let scatter_direction := if scatter_direction.near_zero then rec.normal else scatter_direction
  { ok := true, attenuation := m.albedo, scattered := ⟨rec.p, scatter_direction⟩ }

/-- The class `metal`. -/
structure metal (F : Type) where
  albedo : color F
  fuzz : F

/-- The constructor `metal(a, f) : albedo(a), fuzz(f < 1 ? f : 1)`. -/
def metal.make (a : color F) (f : F) : metal F := ⟨a, if f < 1 then f else 1⟩

/-- The method `metal::scatter`; `d` is the value of `random_unit_vector()`. -/
def metal.scatter {M : Type} (sqrt : F → F) (m : metal F) (r_in : ray F)
    (rec : hit_record F M) (d : vec3 F) : scatter_result F :=
  let reflected := reflect (unit_vector sqrt r_in.direction) rec.normal
  let scattered : ray F := ⟨rec.p, reflected + m.fuzz • d⟩
  { ok := decide (dot scattered.direction rec.normal > 0)
    attenuation := m.albedo
    scattered := scattered }

/-- The class `dielectric`. -/
structure dielectric (F : Type) where
  ir : F

/-- The static method `dielectric::reflectance(cosine, ref_idx)`. -/
def dielectric.reflectance (cosine ref_idx : F) : F :=
  let r0 := (1 - ref_idx) / (1 + ref_idx)
  let r0 := r0 * r0
  r0 + (1 - r0) * (1 - cosine) ^ 5

/-- The refraction ratio of `dielectric::scatter`: `rec.front_face ? (1.0 / ir) : ir`. -/
def dielectric.refraction_ratio (m : dielectric F) (front_face : Bool) : F :=
  if front_face then 1 / m.ir else m.ir

/-- The method `dielectric::scatter`; `x` is the value of `random_double()`. -/
def dielectric.scatter {M : Type} (sqrt : F → F) (m : dielectric F) (r_in : ray F)
    (rec : hit_record F M) (x : F) : scatter_result F :=
  let refraction_ratio := m.refraction_ratio rec.front_face
  let unit_direction := unit_vector sqrt r_in.direction
  let cos_theta := min (dot (-unit_direction) rec.normal) 1
  let sin_theta := sqrt (1 - cos_theta * cos_theta)
  let cannot_refract : Bool := decide (refraction_ratio * sin_theta > 1)
  let direction :=
    if cannot_refract || decide (dielectric.reflectance cos_theta refraction_ratio > x) then
      reflect unit_direction rec.normal
    else
      refract sqrt unit_direction rec.normal refraction_ratio
  { ok := true, attenuation := ⟨1, 1, 1⟩, scattered := ⟨rec.p, direction⟩ }

/-- The three classes derived from `material`. -/
inductive material (F : Type) where
  | lambertian (m : Raytracer.lambertian F)
  | metal (m : Raytracer.metal F)
  | dielectric (m : Raytracer.dielectric F)

/-- The virtual `material::scatter`, dispatched on the class of the material; `d` and `x`
are the values of `random_unit_vector()` and `random_double()`. -/
def material.scatter {M : Type} (sqrt : F → F) (m : material F) (r_in : ray F)
    (rec : hit_record F M) (d : vec3 F) (x : F) : scatter_result F :=
  match m with
  | .lambertian m => m.scatter r_in rec d
  | .metal m => m.scatter sqrt r_in rec d
  | .dielectric m => m.scatter sqrt r_in rec x

/-! ## camera.h -/

/-- The interval `interval(0.0001, infinity)` over which `ray_color` queries the world. -/
def camera.ray_t : interval F := ⟨ext.of (1 / 10000), infinity⟩

/-- The background of `ray_color`: the blend of white and `(0.5, 0.7, 1.0)` by
`a = 0.5 * (unit_direction.y() + 1.0)`. -/
def camera.sky (sqrt : F → F) (r : ray F) : color F :=
  let unit_direction := unit_vector sqrt r.direction
  let a := (1 / 2) * (unit_direction.y + 1)
  (1 - a) • (⟨1, 1, 1⟩ : color F) + a • (⟨1 / 2, 7 / 10, 1⟩ : color F)

/-- What a run of `ray_color` leaves behind: the returned color, the state of the random
source, and a ghost count `calls` of the recursive calls the run made. -/
structure ray_color_result (F σ : Type) where
  color : color F
  rng : σ
  calls : Nat

/-- The method `camera::ray_color(r, depth, world)`, instrumented.  The virtual
`rec.mat->scatter` is the argument `scatter`; it draws from the random source, whose state
`σ` is threaded through the run. -/
def camera.ray_color_run {M σ : Type} (sqrt : F → F) (world : hittable F M)
    (scatter : M → ray F → hit_record F M → σ → scatter_result F × σ)
    (r : ray F) (depth : Int) (s : σ) : ray_color_result F σ :=
  if depth ≤ 0 then ⟨⟨0, 0, 0⟩, s, 0⟩
  else
    match world r camera.ray_t with
    | some rec =>
      let res := scatter rec.mat r rec s
      if res.1.ok then
        let sub := camera.ray_color_run sqrt world scatter res.1.scattered (depth - 1) res.2
        ⟨res.1.attenuation * sub.color, sub.rng, sub.calls + 1⟩
      else ⟨⟨0, 0, 0⟩, res.2, 0⟩
    | none => ⟨camera.sky sqrt r, s, 0⟩
termination_by depth.toNat
decreasing_by omega

/-- The color returned by `camera::ray_color(r, depth, world)`. -/
def camera.ray_color {M σ : Type} (sqrt : F → F) (world : hittable F M)
    (scatter : M → ray F → hit_record F M → σ → scatter_result F × σ)
    (r : ray F) (depth : Int) (s : σ) : color F :=
  (camera.ray_color_run sqrt world scatter r depth s).color

/-- The conversion `static_cast<int>(x)` of a double: truncation toward zero. -/
def static_cast_int [FloorRing F] (x : F) : Int := if 0 ≤ x then ⌊x⌋ else ⌈x⌉

/-- The class `camera`: the public configuration, then the private state that `initialize`
derives from it. -/
structure camera (F : Type) where
  aspect_ratio : F
  image_width : Int
  samples_per_pixel : Int
  max_depth : Int
  vfov : F
  lookfrom : point3 F
  lookat : point3 F
  vup : vec3 F
  defocus_angle : F
  focus_dist : F
  image_height : Int
  center : point3 F
  pixel00_loc : point3 F
  pixel_delta_u : vec3 F
  pixel_delta_v : vec3 F
  u : vec3 F
  v : vec3 F
  w : vec3 F
  defocus_disk_u : vec3 F
  defocus_disk_v : vec3 F

/-- A camera as it is constructed: the default member initializers of the class; the private
state is not initialized by the constructor and is given zeros here. -/
def camera.default : camera F :=
  { aspect_ratio := 1, image_width := 100, samples_per_pixel := 10, max_depth := 10,
    vfov := 90, lookfrom := ⟨0, 0, -1⟩, lookat := ⟨0, 0, 0⟩, vup := ⟨0, 1, 0⟩,
    defocus_angle := 0, focus_dist := 10,
    image_height := 0, center := 0, pixel00_loc := 0, pixel_delta_u := 0, pixel_delta_v := 0,
    u := 0, v := 0, w := 0, defocus_disk_u := 0, defocus_disk_v := 0 }

/-- The method `camera::initialize()`, as the function from a camera to the camera it has
become after the call (`initialized` stands for the method's name).  The functions `tan` of
`<cmath>` and `degrees_to_radians` of utils.h are arguments, as `sqrt` is. -/
def camera.initialized [FloorRing F] (sqrt tan degrees_to_radians : F → F) (c : camera F) :
    camera F :=
  let image_height := static_cast_int ((c.image_width : F) / c.aspect_ratio)
  let image_height := if image_height < 1 then 1 else image_height
  let center := c.lookfrom
  let theta := degrees_to_radians c.vfov
  let h := tan (theta / 2)
  let viewport_height := 2 * h * c.focus_dist
  let viewport_width := viewport_height * ((c.image_width : F) / (image_height : F))
  let w := unit_vector sqrt (c.lookfrom - c.lookat)
  let u := unit_vector sqrt (cross c.vup w)
  let v := cross w u
  let viewport_u := viewport_width • u
  let viewport_v := viewport_height • (-v)
  let pixel_delta_u := viewport_u / (c.image_width : F)
  let pixel_delta_v := viewport_v / (image_height : F)
  let viewport_upper_left :=
    center - (c.focus_dist • w) - viewport_u / (2 : F) - viewport_v / (2 : F)
  let pixel00_loc := viewport_upper_left + (1 / 2 : F) • (pixel_delta_u + pixel_delta_v)
  let defocus_radius := c.focus_dist * tan (degrees_to_radians (c.defocus_angle / 2))
  { c with
    image_height := image_height
    center := center
    pixel00_loc := pixel00_loc
    pixel_delta_u := pixel_delta_u
    pixel_delta_v := pixel_delta_v
    u := u
    v := v
    w := w
    defocus_disk_u := defocus_radius • u
    defocus_disk_v := defocus_radius • v }

/-- The method `camera::pixel_sample_square()`; `r1` and `r2` are the values of its two calls
of `random_double()`, in order. -/
def camera.pixel_sample_square (c : camera F) (r1 r2 : F) : vec3 F :=
  let px := -(1 / 2) + r1
  let py := -(1 / 2) + r2
  (px • c.pixel_delta_u) + (py • c.pixel_delta_v)

/-- The method `camera::defocus_disk_sample()`; `p` is the value of `random_in_unit_disk()`. -/
def camera.defocus_disk_sample (c : camera F) (p : vec3 F) : point3 F :=
  c.center + (p.x • c.defocus_disk_u) + (p.y • c.defocus_disk_v)

/-- The method `camera::get_ray(i, j)`; `r1`, `r2` are the draws of `pixel_sample_square()`
and `p` is the draw of `defocus_disk_sample()`, which is made only when `defocus_angle > 0`. -/
def camera.get_ray (c : camera F) (i j : Int) (r1 r2 : F) (p : vec3 F) : ray F :=
  let pixel_center := c.pixel00_loc + ((i : F) • c.pixel_delta_u) + ((j : F) • c.pixel_delta_v)
  let pixel_sample := pixel_center + c.pixel_sample_square r1 r2
  let ray_origin := if c.defocus_angle ≤ 0 then c.center else c.defocus_disk_sample p
  let ray_direction := pixel_sample - ray_origin
  ⟨ray_origin, ray_direction⟩


/-! ## Specification vocabulary -/

variable {M σ : Type}

/-- The parameter `t` is the nearest member of `S` strictly inside `ray_t`. -/
def nearest_in (S : Set F) (ray_t : interval F) (t : F) : Prop :=
  t ∈ S ∧ ray_t.surrounds t = true ∧ ∀ u ∈ S, ray_t.surrounds u = true → t ≤ u

/-- The hit contract of a primitive for the ray `r`: there is a set `S` of intersection
parameters such that, whatever interval it is given, `o` reports the nearest member of `S`
strictly inside that interval, and reports no hit when no member of `S` is strictly inside. -/
def obeys_hit_contract (o : hittable F M) (r : ray F) : Prop :=
  ∃ S : Set F, ∀ ray_t : interval F,
    match o r ray_t with
    | some rec => nearest_in S ray_t rec.t
    | none => ∀ u ∈ S, ray_t.surrounds u = false


/-- The loop invariant of `hittable_list::hit` after the members `pre` have been tested. -/
def hit_inv (r : ray F) (ray_t : interval F) (pre : List (hittable F M))
    (st : hit_state F M) : Prop :=
  (st.hit_anything = false ∧ st.closest_so_far = ray_t.max ∧ ∀ o ∈ pre, o r ray_t = none) ∨
  (∃ rec, st.hit_anything = true ∧ st.rec_out = some rec ∧ st.closest_so_far = ext.of rec.t ∧
    ext.of rec.t < ray_t.max ∧
    (∃ o ∈ pre, ∃ rec', o r ray_t = some rec' ∧ rec'.t = rec.t) ∧
    ∀ o ∈ pre, ∀ rec', o r ray_t = some rec' → rec.t ≤ rec'.t)


/-- The state of the loop of `hittable_list::hit` once the members `objs` have been tested, in
order, starting from `hit_anything = false` and `closest_so_far = ray_t.max`. -/
def hittable_list.scan (objs : List (hittable F M)) (r : ray F) (ray_t : interval F) :
    hit_state F M :=
  objs.foldl (hittable_list.hit_step r ray_t)
    { hit_anything := false, closest_so_far := ray_t.max, rec_out := none }

/-- The primitive `o` reports only `t` values strictly inside the interval it is given. -/
def reports_inside (o : hittable F M) (r : ray F) : Prop :=
  ∀ (ray_t : interval F) (rec : hit_record F M),
    o r ray_t = some rec → ray_t.surrounds rec.t = true

/-- Every component of the color `c` lies in `[0, 1]`. -/
def color_in_unit_range (c : color F) : Prop :=
  (0 ≤ c.x ∧ c.x ≤ 1) ∧ (0 ≤ c.y ∧ c.y ≤ 1) ∧ (0 ≤ c.z ∧ c.z ≤ 1)

/-- The parameter `t` solves `|origin + t·dir - center|² = radius²`. -/
def sphere.is_intersection (s : sphere F M) (r : ray F) (t : F) : Prop :=
  (r.at' t - s.center).length_squared = s.radius * s.radius


/-! ## A test scene

The scene of main.cpp reduced to its ground sphere, the ray that looks straight down on it from
`(0, 5, 0)`, and a mocked random source that always returns the same draws. -/

/-- The ground of main.cpp: `sphere(point3(0, -1000, 0), 1000, lambertian(color(0.5, 0.5, 0.5)))`. -/
def ground_sphere : sphere F (material F) :=
  ⟨⟨0, -1000, 0⟩, 1000, .lambertian ⟨⟨1 / 2, 1 / 2, 1 / 2⟩⟩⟩

/-- A unit glass sphere of main.cpp: `sphere(point3(0, 1, 0), 1.0, dielectric(1.5))`. -/
def glass_sphere : sphere F (material F) :=
  ⟨⟨0, 1, 0⟩, 1, .dielectric ⟨3 / 2⟩⟩

/-- The world that holds only the ground sphere. -/
def ground_world (sqrt : F → F) : hittable_list F (material F) :=
  (hittable_list.mk []).add (sphere.hit sqrt ground_sphere)

/-- The world that holds the ground sphere and the glass sphere above it. -/
def two_sphere_world (sqrt : F → F) : hittable_list F (material F) :=
  ((hittable_list.mk []).add (sphere.hit sqrt ground_sphere)).add (sphere.hit sqrt glass_sphere)

/-- The same two spheres added in the other order. -/
def swapped_two_sphere_world (sqrt : F → F) : hittable_list F (material F) :=
  ((hittable_list.mk []).add (sphere.hit sqrt glass_sphere)).add (sphere.hit sqrt ground_sphere)

/-- The ray from `(0, 5, 0)` straight down. -/
def down_ray : ray F := ⟨⟨0, 5, 0⟩, ⟨0, -1, 0⟩⟩

/-- The ray from `(0, 5, 0)` straight up. -/
def up_ray : ray F := ⟨⟨0, 5, 0⟩, ⟨0, 1, 0⟩⟩

/-- The camera of main.cpp before `initialize()`. -/
def main_camera : camera F :=
  { (camera.default : camera F) with
    aspect_ratio := 16 / 9, image_width := 1200, samples_per_pixel := 500, max_depth := 50,
    vfov := 20, lookfrom := ⟨13, 2, 3⟩, lookat := ⟨0, 0, 0⟩, vup := ⟨0, 1, 0⟩,
    defocus_angle := 6 / 10, focus_dist := 10 }

/-- The ground sphere once more, made of glass: same center and radius, another material. -/
def glass_ground_sphere : sphere F (material F) :=
  ⟨⟨0, -1000, 0⟩, 1000, .dielectric ⟨3 / 2⟩⟩

/-- A world in which two members tie: the ground sphere, then its glass twin. -/
def tie_world (sqrt : F → F) : hittable_list F (material F) :=
  ((hittable_list.mk []).add (sphere.hit sqrt ground_sphere)).add
    (sphere.hit sqrt glass_ground_sphere)

/-- The mirror of main.cpp: `sphere(point3(4, 1, 0), 1.0, metal(color(0.7, 0.6, 0.5), 0.0))`. -/
def mirror_sphere : sphere F (material F) :=
  ⟨⟨4, 1, 0⟩, 1, .metal (metal.make ⟨7 / 10, 6 / 10, 5 / 10⟩ 0)⟩

/-- A primitive, tagged 1, that the ray meets once, at `t = 3`. -/
def single_root_primitive : hittable F Nat := fun _ ray_t =>
  if ray_t.surrounds 3 then some ⟨0, 0, 1, 3, true⟩ else none

/-- A primitive, tagged 2, that the ray meets at `t = 2` and at `t = 3` and that tries the far
root first: it reports only values strictly inside the interval, but not the nearest one. -/
def far_root_first_primitive : hittable F Nat := fun _ ray_t =>
  if ray_t.surrounds 3 then some ⟨0, 0, 2, 3, true⟩
  else if ray_t.surrounds 2 then some ⟨0, 0, 2, 2, true⟩ else none

/-- The list of the single-root primitive followed by the far-root-first primitive. -/
def far_root_first_world : hittable_list F Nat :=
  ((hittable_list.mk []).add single_root_primitive).add far_root_first_primitive

/-- The virtual `scatter` over a mocked random source: `random_unit_vector()` always returns
`(1, 0, 0)` and `random_double()` always returns `0.5`. -/
def mock_scatter (sqrt : F → F) (m : material F) (r_in : ray F)
    (rec : hit_record F (material F)) (s : Unit) : scatter_result F × Unit :=
  (m.scatter sqrt r_in rec ⟨1, 0, 0⟩ (1 / 2), s)

/-! ## Lemmas -/

@[simp]
theorem vec3.add_x (u v : vec3 F) : (u + v).x = u.x + v.x := rfl
@[simp]
theorem vec3.add_y (u v : vec3 F) : (u + v).y = u.y + v.y := rfl
@[simp]
theorem vec3.add_z (u v : vec3 F) : (u + v).z = u.z + v.z := rfl
@[simp]
theorem vec3.sub_x (u v : vec3 F) : (u - v).x = u.x - v.x := rfl
@[simp]
theorem vec3.sub_y (u v : vec3 F) : (u - v).y = u.y - v.y := rfl
@[simp]
theorem vec3.sub_z (u v : vec3 F) : (u - v).z = u.z - v.z := rfl
@[simp]
theorem vec3.neg_x (v : vec3 F) : (-v).x = -v.x := rfl
@[simp]
theorem vec3.neg_y (v : vec3 F) : (-v).y = -v.y := rfl
@[simp]
theorem vec3.neg_z (v : vec3 F) : (-v).z = -v.z := rfl
@[simp]
theorem vec3.mul_x (u v : vec3 F) : (u * v).x = u.x * v.x := rfl
@[simp]
theorem vec3.mul_y (u v : vec3 F) : (u * v).y = u.y * v.y := rfl
@[simp]
theorem vec3.mul_z (u v : vec3 F) : (u * v).z = u.z * v.z := rfl
@[simp]
theorem vec3.smul_x (t : F) (v : vec3 F) : (t • v).x = t * v.x := rfl
@[simp]
theorem vec3.smul_y (t : F) (v : vec3 F) : (t • v).y = t * v.y := rfl
@[simp]
theorem vec3.smul_z (t : F) (v : vec3 F) : (t • v).z = t * v.z := rfl
@[simp]
theorem vec3.div_x (v : vec3 F) (t : F) : (v / t).x = 1 / t * v.x := rfl
@[simp]
theorem vec3.div_y (v : vec3 F) (t : F) : (v / t).y = 1 / t * v.y := rfl
@[simp]
theorem vec3.div_z (v : vec3 F) (t : F) : (v / t).z = 1 / t * v.z := rfl
@[simp]
theorem vec3.zero_x : (0 : vec3 F).x = 0 := rfl
@[simp]
theorem vec3.zero_y : (0 : vec3 F).y = 0 := rfl
@[simp]
theorem vec3.zero_z : (0 : vec3 F).z = 0 := rfl

theorem vec3.length_squared_nonneg (v : vec3 F) : 0 ≤ v.length_squared := by
  unfold vec3.length_squared
  nlinarith [mul_self_nonneg v.x, mul_self_nonneg v.y, mul_self_nonneg v.z]

theorem vec3.length_squared_pos {v : vec3 F} (hv : v ≠ 0) : 0 < v.length_squared := by
  rcases lt_or_eq_of_le (vec3.length_squared_nonneg v) with h | h
  · exact h
  · exfalso
    apply hv
    unfold vec3.length_squared at h
    have hx : v.x = 0 := by nlinarith [mul_self_nonneg v.x, mul_self_nonneg v.y, mul_self_nonneg v.z]
    have hy : v.y = 0 := by nlinarith [mul_self_nonneg v.x, mul_self_nonneg v.y, mul_self_nonneg v.z]
    have hz : v.z = 0 := by nlinarith [mul_self_nonneg v.x, mul_self_nonneg v.y, mul_self_nonneg v.z]
    ext <;> simp [hx, hy, hz]

theorem sphere.is_intersection_iff (s : sphere F M) (r : ray F) (t : F) :
    s.is_intersection r t ↔
      r.direction.length_squared * t * t - 2 * dot r.direction (s.center - r.origin) * t
        + ((s.center - r.origin).length_squared - s.radius * s.radius) = 0 := by
  unfold sphere.is_intersection vec3.length_squared dot ray.at' ray.direction ray.origin
  simp only [vec3.add_x, vec3.add_y, vec3.add_z, vec3.sub_x, vec3.sub_y, vec3.sub_z,
    vec3.smul_x, vec3.smul_y, vec3.smul_z]
  constructor <;> intro h <;> linear_combination h

theorem quadratic_roots {a h c sd t : F} (ha : 0 < a) (hsd : sd * sd = h * h - a * c) :
    a * t * t - 2 * h * t + c = 0 ↔ t = (h - sd) / a ∨ t = (h + sd) / a := by
  have ha' : a ≠ 0 := ne_of_gt ha
  constructor
  · intro ht
    have hf : (a * t - h - sd) * (a * t - h + sd) = 0 := by
      have : (a * t - h - sd) * (a * t - h + sd) = a * (a * t * t - 2 * h * t + c) - (sd * sd - (h * h - a * c)) := by ring
      rw [this, ht, hsd]; ring
    rcases mul_eq_zero.1 hf with h1 | h1
    · right; rw [eq_div_iff ha']; linear_combination h1
    · left; rw [eq_div_iff ha']; linear_combination h1
  · rintro (ht | ht)
    · rw [eq_div_iff ha'] at ht
      have : a * (a * t * t - 2 * h * t + c) = 0 := by
        have e : a * (a * t * t - 2 * h * t + c) = (t * a - h) * (t * a - h) - (h * h - a * c) := by ring
        rw [e, ← hsd, ht]; ring
      rcases mul_eq_zero.1 this with h1 | h1
      · exact absurd h1 ha'
      · exact h1
    · rw [eq_div_iff ha'] at ht
      have : a * (a * t * t - 2 * h * t + c) = 0 := by
        have e : a * (a * t * t - 2 * h * t + c) = (t * a - h) * (t * a - h) - (h * h - a * c) := by ring
        rw [e, ← hsd, ht]; ring
      rcases mul_eq_zero.1 this with h1 | h1
      · exact absurd h1 ha'
      · exact h1

theorem quadratic_no_root {a h c t : F} (hd : h * h - a * c < 0) :
    a * t * t - 2 * h * t + c ≠ 0 := by
  intro ht
  have e : a * (a * t * t - 2 * h * t + c) = (t * a - h) * (t * a - h) - (h * h - a * c) := by ring
  rw [ht, mul_zero] at e
  nlinarith [mul_self_nonneg (t * a - h)]

@[simp]
theorem sphere.record_t (s : sphere F M) (r : ray F) (root : F) :
    (s.record r root).t = root := rfl

@[simp]
theorem sphere.record_p (s : sphere F M) (r : ray F) (root : F) :
    (s.record r root).p = r.at' root := rfl

theorem ext.of_lt_of {a b : F} : ext.of a < ext.of b ↔ a < b := by
  simp [ext.of]

theorem ext.of_lt_infinity (a : F) : ext.of a < (infinity : ext F) := by
  simp only [ext.of, infinity, WithBot.coe_lt_coe]
  exact WithTop.coe_lt_top a

theorem interval.surrounds_iff (i : interval F) (x : F) :
    i.surrounds x = true ↔ i.min < ext.of x ∧ ext.of x < i.max := by
  simp [interval.surrounds]

theorem contract_shrink {o : hittable F M} {r : ray F} (hc : obeys_hit_contract o r)
    (ray_t : interval F) (c : ext F) (hcle : c ≤ ray_t.max) :
    match o r ⟨ray_t.min, c⟩ with
    | some rec => ext.of rec.t < c ∧ ∃ rec', o r ray_t = some rec' ∧ rec'.t = rec.t
    | none => ∀ rec', o r ray_t = some rec' → c ≤ ext.of rec'.t := by
  obtain ⟨S, hS⟩ := hc
  have h1 := hS ⟨ray_t.min, c⟩
  have h2 := hS ray_t
  cases hq : o r ⟨ray_t.min, c⟩ with
  | some rec =>
    rw [hq] at h1
    obtain ⟨hmem, hsur, hmin⟩ := h1
    rw [interval.surrounds_iff] at hsur
    simp only at hsur
    refine ⟨hsur.2, ?_⟩
    cases hf : o r ray_t with
    | some rec' =>
      rw [hf] at h2
      obtain ⟨hmem', hsur', hmin'⟩ := h2
      refine ⟨rec', rfl, ?_⟩
      have hle : rec'.t ≤ rec.t :=
        hmin' _ hmem ((interval.surrounds_iff _ _).2 ⟨hsur.1, lt_of_lt_of_le hsur.2 hcle⟩)
      rw [interval.surrounds_iff] at hsur'
      have hle' : rec.t ≤ rec'.t :=
        hmin _ hmem' ((interval.surrounds_iff _ _).2
          ⟨hsur'.1, lt_of_le_of_lt (by simpa [ext.of] using hle) hsur.2⟩)
      exact le_antisymm hle hle'
    | none =>
      rw [hf] at h2
      have := h2 _ hmem
      rw [(interval.surrounds_iff _ _).2 ⟨hsur.1, lt_of_lt_of_le hsur.2 hcle⟩] at this
      exact absurd this (by simp)
  | none =>
    rw [hq] at h1
    intro rec' hf
    rw [hf] at h2
    obtain ⟨hmem', hsur', _⟩ := h2
    rw [interval.surrounds_iff] at hsur'
    have h3 := h1 _ hmem'
    by_contra hlt
    rw [not_le] at hlt
    have h4 : interval.surrounds ⟨ray_t.min, c⟩ rec'.t = true :=
      (interval.surrounds_iff _ _).2 ⟨hsur'.1, hlt⟩
    rw [h4] at h3
    exact absurd h3 (by simp)

theorem hit_inv_step {r : ray F} {ray_t : interval F} {pre : List (hittable F M)}
    {st : hit_state F M} {o : hittable F M} (hc : obeys_hit_contract o r)
    (h : hit_inv r ray_t pre st) :
    hit_inv r ray_t (pre ++ [o]) (hittable_list.hit_step r ray_t st o) := by
  have hcle : st.closest_so_far ≤ ray_t.max := by
    rcases h with ⟨_, h2, _⟩ | ⟨rec, _, _, h3, h4, _⟩
    · exact le_of_eq h2
    · rw [h3]; exact le_of_lt h4
  have key := contract_shrink hc ray_t st.closest_so_far hcle
  unfold hittable_list.hit_step
  cases hq : o r ⟨ray_t.min, st.closest_so_far⟩ with
  | some temp_rec =>
    rw [hq] at key
    obtain ⟨hlt, rec', hf, ht⟩ := key
    right
    refine ⟨temp_rec, rfl, rfl, rfl, lt_of_lt_of_le hlt hcle, ⟨o, by simp, rec', hf, ht⟩, ?_⟩
    intro o' ho' rec'' hf'
    rcases List.mem_append.1 ho' with hin | hin
    · rcases h with ⟨_, _, h3⟩ | ⟨rec, _, _, h3, _, _, h6⟩
      · rw [h3 o' hin] at hf'; exact absurd hf' (by simp)
      · have := h6 o' hin rec'' hf'
        rw [h3] at hlt
        exact le_trans (le_of_lt (ext.of_lt_of.1 hlt)) this
    · rw [List.mem_singleton] at hin
      subst hin
      rw [hf] at hf'
      cases hf'
      exact le_of_eq ht.symm
  | none =>
    rw [hq] at key
    simp only
    rcases h with ⟨h1, h2, h3⟩ | ⟨rec, h1, h2, h3, h4, h5, h6⟩
    · left
      refine ⟨h1, h2, ?_⟩
      intro o' ho'
      rcases List.mem_append.1 ho' with hin | hin
      · exact h3 o' hin
      · rw [List.mem_singleton] at hin
        subst hin
        cases hf : o' r ray_t with
        | none => rfl
        | some rec' =>
          have h7 := key rec' hf
          obtain ⟨S, hS⟩ := hc
          have h8 := hS ray_t
          rw [hf] at h8
          have h9 := ((interval.surrounds_iff _ _).1 h8.2.1).2
          rw [h2] at h7
          exact absurd h9 (not_lt.2 h7)
    · right
      obtain ⟨o0, ho0, rec0, hf0, ht0⟩ := h5
      refine ⟨rec, h1, h2, h3, h4, ⟨o0, List.mem_append_left _ ho0, rec0, hf0, ht0⟩, ?_⟩
      intro o' ho' rec'' hf'
      rcases List.mem_append.1 ho' with hin | hin
      · exact h6 o' hin rec'' hf'
      · rw [List.mem_singleton] at hin
        subst hin
        have h7 := key rec'' hf'
        rw [h3] at h7
        simpa [ext.of] using h7

theorem hit_inv_foldl {r : ray F} {ray_t : interval F} (objs : List (hittable F M))
    (hc : ∀ o ∈ objs, obeys_hit_contract o r) :
    ∀ (pre : List (hittable F M)) (st : hit_state F M), hit_inv r ray_t pre st →
      hit_inv r ray_t (pre ++ objs) (objs.foldl (hittable_list.hit_step r ray_t) st) := by
  induction objs with
  | nil => intro pre st h; simpa using h
  | cons o objs ih =>
    intro pre st h
    have h1 := hit_inv_step (hc o (by simp)) h
    have h2 := ih (fun o' ho' => hc o' (by simp [ho'])) _ _ h1
    simpa using h2

theorem hit_inv_final (l : hittable_list F M) (r : ray F) (ray_t : interval F)
    (hc : ∀ o ∈ l.objects, obeys_hit_contract o r) :
    hit_inv r ray_t l.objects (l.objects.foldl (hittable_list.hit_step r ray_t)
      { hit_anything := false, closest_so_far := ray_t.max, rec_out := none }) := by
  have := hit_inv_foldl l.objects hc [] _
    (Or.inl ⟨rfl, rfl, by simp⟩ :
      hit_inv r ray_t [] { hit_anything := false, closest_so_far := ray_t.max, rec_out := none })
  simpa using this


/-- What `sphere::hit` returns, against the solutions of the sphere equation. -/
theorem sphere.hit_spec {sqrt : F → F} (hs : IsSqrt sqrt) (s : sphere F M) (r : ray F)
    (hdir : r.direction ≠ 0) (ray_t : interval F) :
    match s.hit sqrt r ray_t with
    | some rec => nearest_in {t | s.is_intersection r t} ray_t rec.t
    | none => ∀ u ∈ {t | s.is_intersection r t}, ray_t.surrounds u = false := by
  have ha : 0 < r.direction.length_squared := vec3.length_squared_pos hdir
  unfold sphere.hit nearest_in
  simp only [Set.mem_setOf_eq, sphere.is_intersection_iff]
  generalize dot r.direction (s.center - r.origin) = h
  generalize (s.center - r.origin).length_squared - s.radius * s.radius = c
  generalize r.direction.length_squared = a at ha
  by_cases hd : h * h - a * c < 0
  · rw [if_pos hd]
    intro u hu
    exact absurd hu (quadratic_no_root hd)
  · rw [if_neg hd]
    have hsd := hs.mul_self _ (not_lt.1 hd)
    have hnn := hs.nonneg _ (not_lt.1 hd)
    generalize sqrt (h * h - a * c) = sd at hsd hnn
    have hle : (h - sd) / a ≤ (h + sd) / a :=
      div_le_div_of_nonneg_right (by linarith) (le_of_lt ha)
    have hroots := fun t => quadratic_roots (t := t) ha hsd
    by_cases h1 : ray_t.surrounds ((h - sd) / a) = true
    · rw [if_pos h1]
      refine ⟨(hroots _).2 (Or.inl rfl), h1, ?_⟩
      intro u hu _
      rcases (hroots u).1 hu with e | e
      · exact le_of_eq e.symm
      · rw [e]; exact hle
    · rw [if_neg h1]
      by_cases h2 : ray_t.surrounds ((h + sd) / a) = true
      · rw [if_pos h2]
        refine ⟨(hroots _).2 (Or.inr rfl), h2, ?_⟩
        intro u hu hsur
        rcases (hroots u).1 hu with e | e
        · rw [e] at hsur; exact absurd hsur h1
        · exact le_of_eq e.symm
      · rw [if_neg h2]
        intro u hu
        rcases (hroots u).1 hu with e | e
        · rw [e]; simpa using h1
        · rw [e]; simpa using h2

theorem interval.surrounds_fin_inf (a x : F) :
    interval.surrounds ⟨ext.of a, infinity⟩ x = decide (a < x) := by
  simp only [interval.surrounds, ext.of_lt_of, ext.of_lt_infinity, decide_True, Bool.and_true]

theorem interval.surrounds_fin_fin (a b x : F) :
    interval.surrounds ⟨ext.of a, ext.of b⟩ x = (decide (a < x) && decide (x < b)) := by
  simp only [interval.surrounds, ext.of_lt_of]

theorem real_sqrt_isSqrt : IsSqrt Real.sqrt :=
  ⟨fun x _ => Real.sqrt_nonneg x, fun _ hx => Real.mul_self_sqrt hx⟩

theorem sphere.hit_obeys_contract {sqrt : F → F} (hs : IsSqrt sqrt) (s : sphere F M)
    (r : ray F) (hdir : r.direction ≠ 0) : obeys_hit_contract (s.hit sqrt) r :=
  ⟨{t | s.is_intersection r t}, fun ray_t => sphere.hit_spec hs s r hdir ray_t⟩

/-! ## The claims -/

/-- C1: for every ray, every interval and every list of primitives whose own hit obeys the
hit contract, `hittable_list::hit` reports a hit if and only if at least one member reports a
hit when tested alone over the same interval, and the reported `t` is then the minimum of the
members' individual `t` values over that interval: some member reports it and no member
reports a smaller one. -/
theorem hittable_list_hit_is_nearest (l : hittable_list F M) (r : ray F) (ray_t : interval F)
    (hc : ∀ o ∈ l.objects, obeys_hit_contract o r) :
    ((l.hit r ray_t).isSome = true ↔ ∃ o ∈ l.objects, (o r ray_t).isSome = true) ∧
    ∀ rec, l.hit r ray_t = some rec →
      (∃ o ∈ l.objects, ∃ rec', o r ray_t = some rec' ∧ rec'.t = rec.t) ∧
      ∀ o ∈ l.objects, ∀ rec', o r ray_t = some rec' → rec.t ≤ rec'.t := by
  have hinv := hit_inv_final l r ray_t hc
  unfold hittable_list.hit
  simp only
  rcases hinv with ⟨h1, _, h3⟩ | ⟨rec, h1, h2, _, _, h5, h6⟩
  · rw [h1]
    constructor
    · constructor
      · intro h; simp at h
      · rintro ⟨o, ho, hs⟩
        rw [h3 o ho] at hs; simp at hs
    · intro rec h; simp at h
  · rw [h1, h2]
    constructor
    · constructor
      · intro _
        obtain ⟨o, ho, rec', hf, _⟩ := h5
        exact ⟨o, ho, by simp [hf]⟩
      · intro _; simp
    · intro rec0 h
      simp only [if_true, Option.some.injEq] at h
      subst h
      exact ⟨h5, h6⟩

theorem down_ray_direction_ne_zero : (down_ray : ray F).direction ≠ 0 := by
  intro h
  have h1 := congrArg vec3.y h
  simp [down_ray, ray.direction] at h1

/-- C1, on the two spheres of the test scene and the ray straight down. -/
theorem hittable_list_hit_is_nearest_witness :
    (∀ o ∈ (two_sphere_world Real.sqrt).objects, obeys_hit_contract o (down_ray : ray ℝ)) ∧
    ((((two_sphere_world Real.sqrt).hit down_ray camera.ray_t).isSome = true ↔
        ∃ o ∈ (two_sphere_world Real.sqrt).objects, (o down_ray camera.ray_t).isSome = true) ∧
      ∀ rec, (two_sphere_world Real.sqrt).hit down_ray camera.ray_t = some rec →
        (∃ o ∈ (two_sphere_world Real.sqrt).objects, ∃ rec',
          o down_ray camera.ray_t = some rec' ∧ rec'.t = rec.t) ∧
        ∀ o ∈ (two_sphere_world Real.sqrt).objects, ∀ rec',
          o down_ray camera.ray_t = some rec' → rec.t ≤ rec'.t) :=
  have h : ∀ o ∈ (two_sphere_world Real.sqrt).objects,
      obeys_hit_contract o (down_ray : ray ℝ) := by
    intro o ho
    simp only [two_sphere_world, hittable_list.add, List.nil_append, List.cons_append,
      List.mem_cons, List.mem_singleton, List.not_mem_nil, or_false] at ho
    rcases ho with rfl | rfl
    · exact sphere.hit_obeys_contract real_sqrt_isSqrt _ _ down_ray_direction_ne_zero
    · exact sphere.hit_obeys_contract real_sqrt_isSqrt _ _ down_ray_direction_ne_zero
  ⟨h, hittable_list_hit_is_nearest _ _ _ h⟩

/-- C2: whenever `sphere::hit` reports a hit, the reported `t` lies strictly inside the
queried interval (`interval::surrounds(t)` holds) and the reported point is `ray.at(t)`,
that is `origin + t * direction`.  It holds for every ray, so for every ray with non-zero
direction. -/
theorem sphere_hit_t_surrounded_and_point_at_t (sqrt : F → F) (s : sphere F M) (r : ray F)
    (ray_t : interval F) (rec : hit_record F M) (h : s.hit sqrt r ray_t = some rec) :
    ray_t.surrounds rec.t = true ∧ rec.p = r.at' rec.t ∧
      r.at' rec.t = r.origin + rec.t • r.direction := by
  unfold sphere.hit at h
  simp only at h
  split_ifs at h with h0 h1 h2
  · cases h
    exact ⟨by simpa using h1, rfl, rfl⟩
  · cases h
    exact ⟨by simpa using h2, rfl, rfl⟩

theorem ground_sphere_hit_down_ray :
    sphere.hit Real.sqrt (ground_sphere : sphere ℝ (material ℝ)) down_ray camera.ray_t
      = some (sphere.record ground_sphere down_ray 5) := by
  have h : Real.sqrt 1000000 = 1000 := by
    rw [show (1000000 : ℝ) = 1000 ^ 2 by norm_num]
    exact Real.sqrt_sq (by norm_num)
  simp [sphere.hit, vec3.length_squared, dot, ray.direction, ray.origin, ground_sphere,
    down_ray, camera.ray_t, interval.surrounds_fin_inf]
  norm_num [h]

/-- C2, on the ground sphere hit from straight above at `t = 5`. -/
theorem sphere_hit_t_surrounded_and_point_at_t_witness :
    sphere.hit Real.sqrt (ground_sphere : sphere ℝ (material ℝ)) down_ray camera.ray_t
      = some (sphere.record ground_sphere down_ray 5) ∧
    ((camera.ray_t : interval ℝ).surrounds (sphere.record ground_sphere down_ray 5).t = true ∧
      (sphere.record (ground_sphere : sphere ℝ (material ℝ)) down_ray 5).p
        = down_ray.at' (sphere.record (ground_sphere : sphere ℝ (material ℝ)) down_ray 5).t ∧
      (down_ray : ray ℝ).at' (sphere.record (ground_sphere : sphere ℝ (material ℝ)) down_ray 5).t
        = down_ray.origin
          + (sphere.record (ground_sphere : sphere ℝ (material ℝ)) down_ray 5).t
            • down_ray.direction) :=
  ⟨ground_sphere_hit_down_ray,
    sphere_hit_t_surrounded_and_point_at_t Real.sqrt ground_sphere down_ray camera.ray_t _
      ground_sphere_hit_down_ray⟩

/-- C3: for every ray with non-zero direction, every sphere and every interval, `sphere::hit`
returns the nearest valid hit: it reports no hit exactly when no solution `t` of
`|origin + t*dir - center|² = radius²` lies strictly inside the interval, and otherwise the
reported `t` is the smallest such solution. -/
theorem sphere_hit_nearest_solution (sqrt : F → F) (hs : IsSqrt sqrt) (s : sphere F M)
    (r : ray F) (hdir : r.direction ≠ 0) (ray_t : interval F) :
    (s.hit sqrt r ray_t = none ↔
      ∀ t, s.is_intersection r t → ray_t.surrounds t = false) ∧
    ∀ rec, s.hit sqrt r ray_t = some rec →
      s.is_intersection r rec.t ∧ ray_t.surrounds rec.t = true ∧
      ∀ t, s.is_intersection r t → ray_t.surrounds t = true → rec.t ≤ t := by
  have key := sphere.hit_spec hs s r hdir ray_t
  cases hq : s.hit sqrt r ray_t with
  | none =>
    rw [hq] at key
    exact ⟨⟨fun _ => key, fun _ => rfl⟩, fun rec h => by cases h⟩
  | some rec0 =>
    rw [hq] at key
    obtain ⟨h1, h2, h3⟩ := key
    refine ⟨⟨fun h => (by cases h), fun h => ?_⟩, ?_⟩
    · have := h rec0.t h1
      rw [h2] at this
      cases this
    · intro rec h
      cases h
      exact ⟨h1, h2, h3⟩

/-- C3, on the ground sphere and the ray straight down over `(0.0001, infinity)`. -/
theorem sphere_hit_nearest_solution_witness :
    IsSqrt Real.sqrt ∧ (down_ray : ray ℝ).direction ≠ 0 ∧
    ((sphere.hit Real.sqrt (ground_sphere : sphere ℝ (material ℝ)) down_ray camera.ray_t = none ↔
      ∀ t, (ground_sphere : sphere ℝ (material ℝ)).is_intersection down_ray t →
        (camera.ray_t : interval ℝ).surrounds t = false) ∧
    ∀ rec, sphere.hit Real.sqrt (ground_sphere : sphere ℝ (material ℝ)) down_ray camera.ray_t
        = some rec →
      (ground_sphere : sphere ℝ (material ℝ)).is_intersection down_ray rec.t ∧
      (camera.ray_t : interval ℝ).surrounds rec.t = true ∧
      ∀ t, (ground_sphere : sphere ℝ (material ℝ)).is_intersection down_ray t →
        (camera.ray_t : interval ℝ).surrounds t = true → rec.t ≤ t) :=
  ⟨real_sqrt_isSqrt, down_ray_direction_ne_zero,
    sphere_hit_nearest_solution Real.sqrt real_sqrt_isSqrt ground_sphere down_ray
      down_ray_direction_ne_zero camera.ray_t⟩

/-- C4: for every ray and every outward normal, after `set_face_normal(ray, outward_normal)`
the stored normal satisfies `dot(ray.direction, normal) <= 0`, `front_face` is true exactly
when `dot(ray.direction, outward_normal) < 0`, and `normal` is `outward_normal` when
`front_face` is true and `-outward_normal` otherwise; the other fields are left alone. -/
theorem set_face_normal_opposes_ray (rec : hit_record F M) (r : ray F)
    (outward_normal : vec3 F) :
    dot r.direction (rec.set_face_normal r outward_normal).normal ≤ 0 ∧
    ((rec.set_face_normal r outward_normal).front_face = true ↔
      dot r.direction outward_normal < 0) ∧
    (rec.set_face_normal r outward_normal).normal =
      (if (rec.set_face_normal r outward_normal).front_face = true then outward_normal
        else -outward_normal) ∧
    (rec.set_face_normal r outward_normal).p = rec.p ∧
    (rec.set_face_normal r outward_normal).t = rec.t ∧
    (rec.set_face_normal r outward_normal).mat = rec.mat := by
  refine ⟨?_, by simp [hit_record.set_face_normal], by simp [hit_record.set_face_normal],
    rfl, rfl, rfl⟩
  simp only [hit_record.set_face_normal, decide_eq_true_eq]
  by_cases h : dot r.direction outward_normal < 0
  · rw [if_pos h]; exact le_of_lt h
  · rw [if_neg h]
    have h1 : dot r.direction (-outward_normal) = -dot r.direction outward_normal := by
      simp only [dot, vec3.neg_x, vec3.neg_y, vec3.neg_z]; ring
    rw [h1]
    linarith [not_lt.1 h]

/-- C5: for every scene and every ray, `ray_color(ray, 0, scene)` returns pure black
`(0, 0, 0)`, makes no recursive call and leaves the random source untouched; the right-hand
side mentions neither the scene nor the ray. -/
theorem ray_color_depth_zero_is_black (sqrt : F → F) (world : hittable F M)
    (scatter : M → ray F → hit_record F M → σ → scatter_result F × σ) (r : ray F) (s : σ) :
    camera.ray_color_run sqrt world scatter r 0 s = ⟨⟨0, 0, 0⟩, s, 0⟩ ∧
    camera.ray_color sqrt world scatter r 0 s = ⟨0, 0, 0⟩ := by
  have h : camera.ray_color_run sqrt world scatter r 0 s = ⟨⟨0, 0, 0⟩, s, 0⟩ := by
    rw [camera.ray_color_run]
    simp
  exact ⟨h, by rw [camera.ray_color, h]⟩

theorem camera.ray_color_run_calls_le (sqrt : F → F) (world : hittable F M)
    (scatter : M → ray F → hit_record F M → σ → scatter_result F × σ) :
    ∀ (n : Nat) (depth : Int) (r : ray F) (s : σ), depth.toNat ≤ n →
      (camera.ray_color_run sqrt world scatter r depth s).calls ≤ depth.toNat := by
  intro n
  induction n with
  | zero =>
    intro depth r s hn
    have hd : depth ≤ 0 := by omega
    rw [camera.ray_color_run, if_pos hd]
    exact Nat.zero_le _
  | succ n ih =>
    intro depth r s hn
    rw [camera.ray_color_run]
    by_cases hd : depth ≤ 0
    · rw [if_pos hd]; exact Nat.zero_le _
    · rw [if_neg hd]
      cases hw : world r camera.ray_t with
      | none => exact Nat.zero_le _
      | some rec =>
        simp only
        by_cases hok : (scatter rec.mat r rec s).1.ok = true
        · rw [if_pos hok]
          have := ih (depth - 1) (scatter rec.mat r rec s).1.scattered (scatter rec.mat r rec s).2
            (by omega)
          simp only
          omega
        · rw [if_neg hok]; exact Nat.zero_le _

/-- C6: `ray_color` is a total function, defined by well-founded recursion on `depth`. For
every scene, every ray and every integer depth, negative ones included, the chain of recursive
calls it makes has length at most `max(depth, 0)`, and for `depth <= 0` it returns at once. -/
theorem ray_color_recursion_bounded_by_depth (sqrt : F → F) (world : hittable F M)
    (scatter : M → ray F → hit_record F M → σ → scatter_result F × σ) (r : ray F)
    (depth : Int) (s : σ) :
    ((camera.ray_color_run sqrt world scatter r depth s).calls : Int) ≤ max depth 0 ∧
    (depth ≤ 0 → camera.ray_color_run sqrt world scatter r depth s = ⟨⟨0, 0, 0⟩, s, 0⟩) := by
  refine ⟨?_, fun hd => by rw [camera.ray_color_run, if_pos hd]⟩
  have h := camera.ray_color_run_calls_le sqrt world scatter depth.toNat depth r s le_rfl
  have h2 : ((depth.toNat : Nat) : Int) = max depth 0 := Int.toNat_eq_max depth
  omega

theorem unit_vector_length_squared {sqrt : F → F} (hs : IsSqrt sqrt) {v : vec3 F} (hv : v ≠ 0) :
    (unit_vector sqrt v).length_squared = 1 := by
  have hpos := vec3.length_squared_pos hv
  have hL := hs.mul_self _ (le_of_lt hpos)
  have hne : sqrt v.length_squared ≠ 0 := by
    intro h0
    rw [h0, mul_zero] at hL
    exact absurd hL.symm (ne_of_gt hpos)
  unfold unit_vector vec3.length
  generalize sqrt v.length_squared = L at hL hne
  simp only [vec3.length_squared, vec3.div_x, vec3.div_y, vec3.div_z] at hL ⊢
  field_simp
  linear_combination -hL

theorem unit_vector_y_le_one {sqrt : F → F} (hs : IsSqrt sqrt) {v : vec3 F} (hv : v ≠ 0) :
    (unit_vector sqrt v).y ≤ 1 := by
  have h := unit_vector_length_squared hs hv
  unfold vec3.length_squared at h
  nlinarith [mul_self_nonneg (unit_vector sqrt v).x, mul_self_nonneg (unit_vector sqrt v).z,
    mul_self_nonneg ((unit_vector sqrt v).y - 1)]

theorem camera.sky_ne_black {sqrt : F → F} (hs : IsSqrt sqrt) {r : ray F}
    (hdir : r.direction ≠ 0) : camera.sky sqrt r ≠ ⟨0, 0, 0⟩ := by
  intro h
  have hy := unit_vector_y_le_one hs hdir
  have hx := congrArg vec3.x h
  simp only [camera.sky, vec3.add_x, vec3.smul_x] at hx
  linarith

theorem camera.ray_color_run_one_hit (sqrt : F → F) (world : hittable F M)
    (scatter : M → ray F → hit_record F M → σ → scatter_result F × σ) (r : ray F) (s : σ)
    (rec : hit_record F M) (h : world r camera.ray_t = some rec) :
    (camera.ray_color_run sqrt world scatter r 1 s).color = ⟨0, 0, 0⟩ := by
  rw [camera.ray_color_run, if_neg (by decide), h]
  simp only
  by_cases hok : (scatter rec.mat r rec s).1.ok = true
  · rw [if_pos hok]
    rw [camera.ray_color_run, if_pos (by decide)]
    ext <;> simp
  · rw [if_neg hok]

theorem camera.ray_color_run_miss (sqrt : F → F) (world : hittable F M)
    (scatter : M → ray F → hit_record F M → σ → scatter_result F × σ) (r : ray F) (s : σ)
    (depth : Int) (hd : 0 < depth) (h : world r camera.ray_t = none) :
    camera.ray_color_run sqrt world scatter r depth s = ⟨camera.sky sqrt r, s, 0⟩ := by
  rw [camera.ray_color_run, if_neg (not_le.2 hd), h]

/-- C7, amended: for every scene and every ray with non-zero direction, `ray_color` at
`depth = 1` returns the sky-gradient color exactly when the ray misses the scene, and returns
black exactly when the ray hits the scene, whether the hit material absorbs the ray or
scatters it: the recursive call runs at depth 0 and returns black, and `attenuation * black`
is black. -/
theorem ray_color_depth_one_sky_iff_miss_black_iff_hit (sqrt : F → F) (hs : IsSqrt sqrt)
    (world : hittable F M) (scatter : M → ray F → hit_record F M → σ → scatter_result F × σ)
    (r : ray F) (hdir : r.direction ≠ 0) (s : σ) :
    (camera.ray_color sqrt world scatter r 1 s = camera.sky sqrt r ↔
      world r camera.ray_t = none) ∧
    (camera.ray_color sqrt world scatter r 1 s = ⟨0, 0, 0⟩ ↔
      ∃ rec, world r camera.ray_t = some rec) := by
  unfold camera.ray_color
  cases hw : world r camera.ray_t with
  | none =>
    rw [camera.ray_color_run_miss sqrt world scatter r s 1 (by decide) hw]
    refine ⟨⟨fun _ => rfl, fun _ => rfl⟩, ⟨fun h => ?_, fun h => ?_⟩⟩
    · exact absurd h (camera.sky_ne_black hs hdir)
    · obtain ⟨rec, hrec⟩ := h
      cases hrec
  | some rec =>
    rw [camera.ray_color_run_one_hit sqrt world scatter r s rec hw]
    refine ⟨⟨fun h => ?_, fun h => (by cases h)⟩, ⟨fun _ => ⟨rec, rfl⟩, fun _ => rfl⟩⟩
    exact absurd h.symm (camera.sky_ne_black hs hdir)

/-- C7 amended, on the world of the ground sphere and the ray straight down. -/
theorem ray_color_depth_one_sky_iff_miss_black_iff_hit_witness :
    IsSqrt Real.sqrt ∧ (down_ray : ray ℝ).direction ≠ 0 ∧
    ((camera.ray_color Real.sqrt (ground_world Real.sqrt).hit (mock_scatter Real.sqrt)
        down_ray 1 () = camera.sky Real.sqrt down_ray ↔
      (ground_world Real.sqrt).hit (down_ray : ray ℝ) camera.ray_t = none) ∧
    (camera.ray_color Real.sqrt (ground_world Real.sqrt).hit (mock_scatter Real.sqrt)
        down_ray 1 () = ⟨0, 0, 0⟩ ↔
      ∃ rec, (ground_world Real.sqrt).hit (down_ray : ray ℝ) camera.ray_t = some rec)) :=
  ⟨real_sqrt_isSqrt, down_ray_direction_ne_zero,
    ray_color_depth_one_sky_iff_miss_black_iff_hit Real.sqrt real_sqrt_isSqrt
      (ground_world Real.sqrt).hit (mock_scatter Real.sqrt) down_ray
      down_ray_direction_ne_zero ()⟩

theorem ground_world_hit_down_ray :
    (ground_world Real.sqrt).hit (down_ray : ray ℝ) camera.ray_t
      = some (sphere.record ground_sphere down_ray 5) := by
  have h := ground_sphere_hit_down_ray
  simp only [ground_world, hittable_list.add, hittable_list.hit, List.nil_append,
    List.foldl_cons, List.foldl_nil, hittable_list.hit_step]
  rw [show (⟨(camera.ray_t : interval ℝ).min, (camera.ray_t : interval ℝ).max⟩ : interval ℝ)
    = camera.ray_t from rfl, h]
  rfl

/-- C7 fails as stated: in the world of the ground sphere, the ray straight down hits, the
lambertian material scatters it (it does not absorb), and `ray_color` at `depth = 1` is black
all the same. -/
theorem ray_color_depth_one_black_though_scattered :
    ∃ rec, (ground_world Real.sqrt).hit (down_ray : ray ℝ) camera.ray_t = some rec ∧
      (mock_scatter Real.sqrt rec.mat down_ray rec ()).1.ok = true ∧
      camera.ray_color Real.sqrt (ground_world Real.sqrt).hit (mock_scatter Real.sqrt)
        down_ray 1 () = ⟨0, 0, 0⟩ :=
  ⟨_, ground_world_hit_down_ray, rfl,
    camera.ray_color_run_one_hit _ _ _ _ _ _ ground_world_hit_down_ray⟩

theorem dot_mul_self_le (u n : vec3 F) :
    dot u n * dot u n ≤ u.length_squared * n.length_squared := by
  unfold dot vec3.length_squared
  nlinarith [mul_self_nonneg (u.x * n.y - u.y * n.x), mul_self_nonneg (u.y * n.z - u.z * n.y),
    mul_self_nonneg (u.z * n.x - u.x * n.z)]

theorem vec3.length_squared_zero : (0 : vec3 F).length_squared = 0 := by
  simp [vec3.length_squared]

theorem vec3.length_squared_eq_one_of_length {sqrt : F → F} (hs : IsSqrt sqrt) {v : vec3 F}
    (h : v.length sqrt = 1) : v.length_squared = 1 := by
  have := hs.mul_self _ (vec3.length_squared_nonneg v)
  unfold vec3.length at h
  rw [h] at this
  linarith

theorem reflect_length_squared (u n : vec3 F) (hn : n.length_squared = 1) :
    (reflect u n).length_squared = u.length_squared := by
  unfold vec3.length_squared at hn ⊢
  simp only [reflect, dot, vec3.sub_x, vec3.sub_y, vec3.sub_z, vec3.smul_x, vec3.smul_y,
    vec3.smul_z]
  linear_combination (4 * (u.x * n.x + u.y * n.y + u.z * n.z) ^ 2) * hn

theorem reflect_ne_zero {u n : vec3 F} (hu : u.length_squared = 1) (hn : n.length_squared = 1) :
    reflect u n ≠ 0 := by
  intro h
  have h1 := reflect_length_squared u n hn
  rw [h, vec3.length_squared_zero, hu] at h1
  exact zero_ne_one h1

theorem refract_ne_zero {sqrt : F → F} (hs : IsSqrt sqrt) {u n : vec3 F}
    (hu : u.length_squared = 1) (hn : n.length_squared = 1) (eta : F) :
    refract sqrt u n eta ≠ 0 := by
  intro h
  have hcs := dot_mul_self_le u n
  rw [hu, hn, mul_one] at hcs
  have hdn : dot (-u) n = -dot u n := by
    simp only [dot, vec3.neg_x, vec3.neg_y, vec3.neg_z]; ring
  have hcos : min (dot (-u) n) 1 = -dot u n := by
    rw [hdn]
    apply min_eq_left
    nlinarith [mul_self_nonneg (dot u n + 1)]
  unfold refract at h
  simp only [hcos] at h
  have hperp : dot (eta • (u + (-dot u n) • n)) n = 0 := by
    unfold vec3.length_squared at hn
    simp only [dot, vec3.smul_x, vec3.smul_y, vec3.smul_z, vec3.add_x, vec3.add_y, vec3.add_z]
    linear_combination (-(eta * (u.x * n.x + u.y * n.y + u.z * n.z))) * (hn)
  have hsq := hs.mul_self _ (abs_nonneg (1 - (eta • (u + (-dot u n) • n)).length_squared))
  generalize eta • (u + (-dot u n) • n) = perp at h hperp hsq
  generalize sqrt |1 - perp.length_squared| = k at h hsq
  have hx := congrArg vec3.x h
  have hy := congrArg vec3.y h
  have hz := congrArg vec3.z h
  simp only [vec3.add_x, vec3.add_y, vec3.add_z, vec3.smul_x, vec3.smul_y, vec3.smul_z,
    vec3.zero_x, vec3.zero_y, vec3.zero_z] at hx hy hz
  unfold dot at hperp
  unfold vec3.length_squared at hn
  have hk : k = 0 := by
    linear_combination (-n.x) * hx - n.y * hy - n.z * hz + hperp - k * hn
  rw [hk] at hx hy hz hsq
  have hpx : perp.x = 0 := by linear_combination hx
  have hpy : perp.y = 0 := by linear_combination hy
  have hpz : perp.z = 0 := by linear_combination hz
  simp [vec3.length_squared, hpx, hpy, hpz] at hsq

theorem lambertian_scattered_ne_zero (m : lambertian F) (r_in : ray F)
    (rec : hit_record F M) (d : vec3 F) (hn : rec.normal ≠ 0) :
    (m.scatter r_in rec d).scattered.direction ≠ 0 := by
  unfold lambertian.scatter ray.direction
  simp only
  by_cases hz : (rec.normal + d).near_zero = true
  · rw [if_pos hz]; exact hn
  · rw [if_neg hz]
    intro h
    apply hz
    rw [h]
    simp [vec3.near_zero]

theorem metal_scattered_ne_zero (sqrt : F → F) (m : metal F) (r_in : ray F)
    (rec : hit_record F M) (d : vec3 F) (hok : (m.scatter sqrt r_in rec d).ok = true) :
    (m.scatter sqrt r_in rec d).scattered.direction ≠ 0 := by
  intro h
  unfold metal.scatter at hok h
  simp only [decide_eq_true_eq] at hok h
  rw [h] at hok
  simp [dot] at hok

theorem dielectric_scattered_ne_zero {sqrt : F → F} (hs : IsSqrt sqrt)
    (m : dielectric F) (r_in : ray F) (rec : hit_record F M) (x : F)
    (hdir : r_in.direction ≠ 0) (hn : rec.normal.length_squared = 1) :
    (m.scatter sqrt r_in rec x).scattered.direction ≠ 0 := by
  have hu := unit_vector_length_squared hs hdir
  unfold dielectric.scatter
  simp only [ray.direction]
  split_ifs
  · exact reflect_ne_zero hu hn
  · exact refract_ne_zero hs hu hn _

/-- C8: for each of the Lambertian, Metal and Dielectric materials, for every incoming ray
with non-zero direction and every hit record whose normal has unit length, whenever `scatter`
reports a scattered ray the direction of that ray is not the zero vector.  It holds for every
value `d` of the random vector and every value `x` of the random scalar, hence for unit `d`
and `x` in `[0, 1)`; for the dielectric it holds in both branches and for every refraction
ratio. -/
theorem scatter_direction_ne_zero (sqrt : F → F) (hs : IsSqrt sqrt) (m : material F)
    (r_in : ray F) (rec : hit_record F M) (d : vec3 F) (x : F)
    (hdir : r_in.direction ≠ 0) (hn : rec.normal.length sqrt = 1)
    (hok : (m.scatter sqrt r_in rec d x).ok = true) :
    (m.scatter sqrt r_in rec d x).scattered.direction ≠ 0 := by
  have hn1 := vec3.length_squared_eq_one_of_length hs hn
  have hn0 : rec.normal ≠ 0 := by
    intro h
    rw [h, vec3.length_squared_zero] at hn1
    exact zero_ne_one hn1
  cases m with
  | lambertian m => exact lambertian_scattered_ne_zero m r_in rec d hn0
  | metal m => exact metal_scattered_ne_zero sqrt m r_in rec d hok
  | dielectric m => exact dielectric_scattered_ne_zero hs m r_in rec x hdir hn1

/-- C8, on glass hit from straight above. -/
theorem scatter_direction_ne_zero_witness :
    IsSqrt Real.sqrt ∧ (down_ray : ray ℝ).direction ≠ 0 ∧
    (⟨⟨0, 2, 0⟩, ⟨0, 1, 0⟩, (), 3, true⟩ : hit_record ℝ Unit).normal.length Real.sqrt = 1 ∧
    ((material.dielectric ⟨3 / 2⟩).scatter Real.sqrt (down_ray : ray ℝ)
      (⟨⟨0, 2, 0⟩, ⟨0, 1, 0⟩, (), 3, true⟩ : hit_record ℝ Unit) ⟨1, 0, 0⟩ (1 / 2)).ok = true ∧
    ((material.dielectric ⟨3 / 2⟩).scatter Real.sqrt (down_ray : ray ℝ)
      (⟨⟨0, 2, 0⟩, ⟨0, 1, 0⟩, (), 3, true⟩ : hit_record ℝ Unit) ⟨1, 0, 0⟩
        (1 / 2)).scattered.direction ≠ 0 :=
  have hn : (⟨⟨0, 2, 0⟩, ⟨0, 1, 0⟩, (), 3, true⟩ : hit_record ℝ Unit).normal.length Real.sqrt
      = 1 := by
    simp [vec3.length, vec3.length_squared]
  ⟨real_sqrt_isSqrt, down_ray_direction_ne_zero, hn, rfl,
    scatter_direction_ne_zero Real.sqrt real_sqrt_isSqrt (material.dielectric ⟨3 / 2⟩) down_ray
      _ ⟨1, 0, 0⟩ (1 / 2) down_ray_direction_ne_zero hn rfl⟩

/-- C9: for a Metal material with `fuzz = 0`, for every incoming ray, every hit record and
every value `d` of the random unit vector, the scattered ray starts at the hit point and its
direction is the ideal reflection `reflect(unit_vector(incoming.direction), hit.normal)`,
which is `v - 2*dot(v, n)*n`, exactly. -/
theorem metal_fuzz_zero_is_mirror (sqrt : F → F) (m : metal F) (hf : m.fuzz = 0)
    (r_in : ray F) (rec : hit_record F M) (d : vec3 F) :
    (m.scatter sqrt r_in rec d).scattered.origin = rec.p ∧
    (m.scatter sqrt r_in rec d).scattered.direction
      = reflect (unit_vector sqrt r_in.direction) rec.normal ∧
    reflect (unit_vector sqrt r_in.direction) rec.normal
      = unit_vector sqrt r_in.direction
        - (2 * dot (unit_vector sqrt r_in.direction) rec.normal) • rec.normal := by
  refine ⟨rfl, ?_, rfl⟩
  simp only [metal.scatter, ray.direction, hf]
  ext <;> simp

/-- C9, on the mirror of main.cpp, `metal(color(0.7, 0.6, 0.5), 0.0)`. -/
theorem metal_fuzz_zero_is_mirror_witness :
    (metal.make (⟨7 / 10, 6 / 10, 5 / 10⟩ : color ℝ) 0).fuzz = 0 ∧
    ((metal.make (⟨7 / 10, 6 / 10, 5 / 10⟩ : color ℝ) 0).scatter Real.sqrt down_ray
      (⟨⟨0, 2, 0⟩, ⟨0, 1, 0⟩, (), 3, true⟩ : hit_record ℝ Unit) ⟨1, 0, 0⟩).scattered.origin
        = ⟨0, 2, 0⟩ ∧
    ((metal.make (⟨7 / 10, 6 / 10, 5 / 10⟩ : color ℝ) 0).scatter Real.sqrt down_ray
      (⟨⟨0, 2, 0⟩, ⟨0, 1, 0⟩, (), 3, true⟩ : hit_record ℝ Unit) ⟨1, 0, 0⟩).scattered.direction
        = reflect (unit_vector Real.sqrt (down_ray : ray ℝ).direction) ⟨0, 1, 0⟩ :=
  have hf : (metal.make (⟨7 / 10, 6 / 10, 5 / 10⟩ : color ℝ) 0).fuzz = 0 := by
    simp [metal.make]
  ⟨hf, (metal_fuzz_zero_is_mirror Real.sqrt _ hf down_ray
      (⟨⟨0, 2, 0⟩, ⟨0, 1, 0⟩, (), 3, true⟩ : hit_record ℝ Unit) ⟨1, 0, 0⟩).1,
    (metal_fuzz_zero_is_mirror Real.sqrt _ hf down_ray
      (⟨⟨0, 2, 0⟩, ⟨0, 1, 0⟩, (), 3, true⟩ : hit_record ℝ Unit) ⟨1, 0, 0⟩).2.1⟩

/-- C10: for every Metal material, incoming ray, hit record and random unit vector `d`,
`metal::scatter` produces a ray from the hit point with direction
`reflect(unit_vector(incoming.direction), hit.normal) + fuzz*d` and attenuation equal to the
albedo, and it reports a scattered ray if and only if `dot(that direction, hit.normal) > 0`;
otherwise it reports none (the ray is absorbed). -/
theorem metal_scatter_direction_attenuation_and_test (sqrt : F → F) (m : metal F)
    (r_in : ray F) (rec : hit_record F M) (d : vec3 F) :
    (m.scatter sqrt r_in rec d).scattered.direction
      = reflect (unit_vector sqrt r_in.direction) rec.normal + m.fuzz • d ∧
    (m.scatter sqrt r_in rec d).scattered.origin = rec.p ∧
    (m.scatter sqrt r_in rec d).attenuation = m.albedo ∧
    ((m.scatter sqrt r_in rec d).ok = true ↔
      dot (reflect (unit_vector sqrt r_in.direction) rec.normal + m.fuzz • d) rec.normal > 0) ∧
    ((m.scatter sqrt r_in rec d).ok = false ↔
      ¬ dot (reflect (unit_vector sqrt r_in.direction) rec.normal + m.fuzz • d) rec.normal
        > 0) := by
  refine ⟨rfl, rfl, rfl, ?_, ?_⟩
  · simp [metal.scatter, ray.direction]
  · simp [metal.scatter, ray.direction]

/-- C11 fails as stated: the constructor keeps a negative `f`, so `metal(a, -1)` stores the
fuzz `-1`, which is outside `[0, 1]`. -/
theorem metal_fuzz_negative_is_kept :
    (metal.make (⟨7 / 10, 6 / 10, 5 / 10⟩ : color ℚ) (-1)).fuzz = -1 ∧
    ¬ (0 ≤ (metal.make (⟨7 / 10, 6 / 10, 5 / 10⟩ : color ℚ) (-1)).fuzz ∧
      (metal.make (⟨7 / 10, 6 / 10, 5 / 10⟩ : color ℚ) (-1)).fuzz ≤ 1) := by
  decide

/-- C11, amended: for every scalar `f` passed to the metal constructor the stored fuzz is at
most 1, and it is non-negative exactly when `f` is; so it lies in `[0, 1]` for every `f >= 0`,
and only then: a negative `f` is stored unchanged. -/
theorem metal_fuzz_le_one_and_nonneg_iff (a : color F) (f : F) :
    (metal.make a f).fuzz ≤ 1 ∧ (0 ≤ (metal.make a f).fuzz ↔ 0 ≤ f) ∧
    (0 ≤ f → 0 ≤ (metal.make a f).fuzz ∧ (metal.make a f).fuzz ≤ 1) ∧
    (f < 0 → (metal.make a f).fuzz = f) := by
  unfold metal.make
  simp only
  by_cases h : f < 1
  · rw [if_pos h]
    exact ⟨le_of_lt h, Iff.rfl, fun h0 => ⟨h0, le_of_lt h⟩, fun _ => rfl⟩
  · rw [if_neg h]
    exact ⟨le_rfl, ⟨fun _ => le_trans zero_le_one (not_lt.1 h), fun _ => zero_le_one⟩,
      fun _ => ⟨zero_le_one, le_rfl⟩,
      fun h0 => absurd (lt_trans h0 zero_lt_one) h⟩

/-- C11 amended, on `f = -1/2`, which is stored unchanged, and on `f = 1/2`, which is stored
inside `[0, 1]`. -/
theorem metal_fuzz_le_one_and_nonneg_iff_witness :
    (-(1 / 2) : ℚ) < 0 ∧
    (metal.make (⟨7 / 10, 6 / 10, 5 / 10⟩ : color ℚ) (-(1 / 2))).fuzz = -(1 / 2) ∧
    (0 : ℚ) ≤ 1 / 2 ∧
    (0 ≤ (metal.make (⟨7 / 10, 6 / 10, 5 / 10⟩ : color ℚ) (1 / 2)).fuzz ∧
      (metal.make (⟨7 / 10, 6 / 10, 5 / 10⟩ : color ℚ) (1 / 2)).fuzz ≤ 1) :=
  ⟨by norm_num, (metal_fuzz_le_one_and_nonneg_iff _ (-(1 / 2))).2.2.2 (by norm_num),
    by norm_num, (metal_fuzz_le_one_and_nonneg_iff _ (1 / 2)).2.2.1 (by norm_num)⟩

/-- C12: for every scalar `f` passed to the metal constructor the stored fuzz is `min(f, 1)`:
exactly 1 for every `f >= 1` and exactly `f` for every `f < 1`.  The constructor is a total
function: it always yields a material, with the albedo it was given. -/
theorem metal_fuzz_is_min (a : color F) (f : F) :
    (metal.make a f).fuzz = min f 1 ∧
    (1 ≤ f → (metal.make a f).fuzz = 1) ∧
    (f < 1 → (metal.make a f).fuzz = f) ∧
    (metal.make a f).albedo = a := by
  unfold metal.make
  simp only
  refine ⟨?_, fun h => if_neg (not_lt.2 h), fun h => if_pos h, trivial⟩
  by_cases h : f < 1
  · rw [if_pos h, min_eq_left (le_of_lt h)]
  · rw [if_neg h, min_eq_right (not_lt.1 h)]

/-- C12, on `f = 2`, which is clamped to 1, and on `f = 0.5`, which is kept. -/
theorem metal_fuzz_is_min_witness :
    (1 : ℚ) ≤ 2 ∧ (metal.make (⟨7 / 10, 6 / 10, 5 / 10⟩ : color ℚ) 2).fuzz = 1 ∧
    (1 / 2 : ℚ) < 1 ∧ (metal.make (⟨7 / 10, 6 / 10, 5 / 10⟩ : color ℚ) (1 / 2)).fuzz = 1 / 2 :=
  ⟨by norm_num, (metal_fuzz_is_min _ 2).2.1 (by norm_num), by norm_num,
    (metal_fuzz_is_min _ (1 / 2)).2.2.1 (by norm_num)⟩

/-- C13: for every Dielectric material, incoming ray, hit record and random draw `x`, with
`eta` the refraction ratio, `cos_theta = min(dot(-unit(incoming.direction), hit.normal), 1)`
and `sin_theta = sqrt(1 - cos_theta^2)`: the scattered direction is the reflection if
`eta*sin_theta > 1` or if `x` is below the Schlick reflectance
`r0^2 + (1 - r0^2)*(1 - cos_theta)^5` with `r0 = (1 - eta)/(1 + eta)`, and the refraction
otherwise; when `eta*sin_theta > 1` it is the reflection for every draw.  It holds for every
ray and every `x`, hence for non-zero directions and `x` in `[0, 1)`. -/
theorem dielectric_scatter_reflects_or_refracts (sqrt : F → F) (m : dielectric F)
    (r_in : ray F) (rec : hit_record F M) (x : F) :
    let eta := m.refraction_ratio rec.front_face
    let unit_direction := unit_vector sqrt r_in.direction
    let cos_theta := min (dot (-unit_direction) rec.normal) 1
    let sin_theta := sqrt (1 - cos_theta ^ 2)
    let r0 := (1 - eta) / (1 + eta)
    let reflectance := r0 ^ 2 + (1 - r0 ^ 2) * (1 - cos_theta) ^ 5
    (m.scatter sqrt r_in rec x).scattered.direction =
      (if eta * sin_theta > 1 ∨ x < reflectance then reflect unit_direction rec.normal
        else refract sqrt unit_direction rec.normal eta) ∧
    (eta * sin_theta > 1 →
      ∀ y, (m.scatter sqrt r_in rec y).scattered.direction
        = reflect unit_direction rec.normal) := by
  intro eta unit_direction cos_theta sin_theta r0 reflectance
  have hsin : sqrt (1 - cos_theta * cos_theta) = sin_theta := by
    show sqrt (1 - cos_theta * cos_theta) = sqrt (1 - cos_theta ^ 2)
    rw [pow_two]
  have hrefl : dielectric.reflectance cos_theta eta = reflectance := by
    show (1 - eta) / (1 + eta) * ((1 - eta) / (1 + eta))
        + (1 - (1 - eta) / (1 + eta) * ((1 - eta) / (1 + eta))) * (1 - cos_theta) ^ 5
      = ((1 - eta) / (1 + eta)) ^ 2 + (1 - ((1 - eta) / (1 + eta)) ^ 2) * (1 - cos_theta) ^ 5
    rw [pow_two]
  have hdir : ∀ y, (m.scatter sqrt r_in rec y).scattered.direction =
      (if eta * sin_theta > 1 ∨ y < reflectance then reflect unit_direction rec.normal
        else refract sqrt unit_direction rec.normal eta) := by
    intro y
    show (if (decide (eta * sqrt (1 - cos_theta * cos_theta) > 1)
          || decide (dielectric.reflectance cos_theta eta > y)) = true
        then reflect unit_direction rec.normal
        else refract sqrt unit_direction rec.normal eta) = _
    rw [hsin, hrefl]
    simp only [Bool.or_eq_true, decide_eq_true_eq, gt_iff_lt]
  refine ⟨hdir x, fun h y => ?_⟩
  rw [hdir y, if_pos (Or.inl h)]

/-- C14: for every Dielectric material, every incoming ray, every hit record and every random
draw, `dielectric::scatter` never absorbs: it reports a scattered ray, that ray starts at the
hit point, and the attenuation is exactly white `(1, 1, 1)`. -/
theorem dielectric_scatter_never_absorbs (sqrt : F → F) (m : dielectric F) (r_in : ray F)
    (rec : hit_record F M) (x : F) :
    (m.scatter sqrt r_in rec x).ok = true ∧
    (m.scatter sqrt r_in rec x).scattered.origin = rec.p ∧
    (m.scatter sqrt r_in rec x).attenuation = ⟨1, 1, 1⟩ :=
  ⟨rfl, rfl, rfl⟩

/-- C15: for every Dielectric material with refractive index `ir` and every hit record, the
refraction ratio is `1/ir` when `hit.front_face` is true and `ir` when it is false, and this
is the ratio that decides the direction `scatter` returns; for `ir = 1.5` the two ratios are
`1/1.5` and `1.5`. -/
theorem dielectric_refraction_ratio_by_face (sqrt : F → F) (m : dielectric F) (r_in : ray F)
    (rec : hit_record F M) (x : F) :
    (rec.front_face = true → m.refraction_ratio rec.front_face = 1 / m.ir) ∧
    (rec.front_face = false → m.refraction_ratio rec.front_face = m.ir) ∧
    (m.scatter sqrt r_in rec x).scattered.direction =
      (if (if rec.front_face = true then 1 / m.ir else m.ir)
            * sqrt (1 - min (dot (-unit_vector sqrt r_in.direction) rec.normal) 1
                * min (dot (-unit_vector sqrt r_in.direction) rec.normal) 1) > 1 ∨
          dielectric.reflectance (min (dot (-unit_vector sqrt r_in.direction) rec.normal) 1)
            (if rec.front_face = true then 1 / m.ir else m.ir) > x
        then reflect (unit_vector sqrt r_in.direction) rec.normal
        else refract sqrt (unit_vector sqrt r_in.direction) rec.normal
          (if rec.front_face = true then 1 / m.ir else m.ir)) ∧
    (dielectric.mk (3 / 2 : F)).refraction_ratio true = 1 / (3 / 2) ∧
    (dielectric.mk (3 / 2 : F)).refraction_ratio false = 3 / 2 := by
  refine ⟨fun h => by rw [h]; rfl, fun h => by rw [h]; rfl, ?_, rfl, rfl⟩
  simp only [dielectric.scatter, dielectric.refraction_ratio, ray.direction, Bool.or_eq_true,
    decide_eq_true_eq]

/-- C16: for every Lambertian material, incoming ray, hit record and random unit vector `d`,
`lambertian::scatter` reports a scattered ray starting at the hit point with attenuation equal
to the albedo; its direction is `hit.normal + d`, except that when every component of
`hit.normal + d` has absolute value below `1e-8` the direction is `hit.normal` itself. -/
theorem lambertian_scatter_normal_plus_draw (m : lambertian F) (r_in : ray F)
    (rec : hit_record F M) (d : vec3 F) :
    (m.scatter r_in rec d).ok = true ∧
    (m.scatter r_in rec d).scattered.origin = rec.p ∧
    (m.scatter r_in rec d).attenuation = m.albedo ∧
    (m.scatter r_in rec d).scattered.direction =
      (if |(rec.normal + d).x| < 1 / 100000000 ∧ |(rec.normal + d).y| < 1 / 100000000 ∧
          |(rec.normal + d).z| < 1 / 100000000
        then rec.normal else rec.normal + d) := by
  refine ⟨rfl, rfl, rfl, ?_⟩
  simp only [lambertian.scatter, ray.direction, vec3.near_zero, Bool.and_eq_true,
    decide_eq_true_eq, and_assoc]

theorem IsSqrt.sqrt_mul_self {sqrt : F → F} (hs : IsSqrt sqrt) (k : F) : sqrt (k * k) = |k| := by
  have h1 := hs.mul_self _ (mul_self_nonneg k)
  have h2 := hs.nonneg _ (mul_self_nonneg k)
  exact (mul_self_inj h2 (abs_nonneg k)).1 (h1.trans (abs_mul_abs_self k).symm)

theorem unit_vector_y_eq (sqrt : F → F) (v : vec3 F) :
    (unit_vector sqrt v).y = v.y / v.length sqrt := by
  simp only [unit_vector, vec3.div_y]
  ring

theorem neg_one_le_unit_vector_y {sqrt : F → F} (hs : IsSqrt sqrt) {v : vec3 F} (hv : v ≠ 0) :
    -1 ≤ (unit_vector sqrt v).y := by
  have h := unit_vector_length_squared hs hv
  unfold vec3.length_squared at h
  nlinarith [mul_self_nonneg (unit_vector sqrt v).x, mul_self_nonneg (unit_vector sqrt v).z,
    mul_self_nonneg ((unit_vector sqrt v).y + 1)]

theorem vec3.length_of_vertical {sqrt : F → F} (hs : IsSqrt sqrt) {v : vec3 F}
    (hx : v.x = 0) (hz : v.z = 0) : v.length sqrt = |v.y| := by
  unfold vec3.length vec3.length_squared
  rw [hx, hz, mul_zero, zero_add, add_zero]
  exact hs.sqrt_mul_self v.y

/-- C17: for every depth `>= 1` and every ray with non-zero direction `d` that misses the
scene, `ray_color` returns `(1 - a)*(1,1,1) + a*(0.5,0.7,1.0)` with `a = 0.5*(d.y/|d| + 1)`;
`a` lies in `[0, 1]`, the result lies componentwise between `(0.5, 0.7, 1.0)` and `(1, 1, 1)`,
and `a = 1` for a ray pointing straight up, `a = 0` for a ray pointing straight down. -/
theorem ray_color_miss_is_sky_gradient (sqrt : F → F) (hs : IsSqrt sqrt) (world : hittable F M)
    (scatter : M → ray F → hit_record F M → σ → scatter_result F × σ) (r : ray F)
    (depth : Int) (s : σ) (hd : 1 ≤ depth) (hdir : r.direction ≠ 0)
    (hmiss : world r camera.ray_t = none) :
    let a := (1 / 2) * (r.direction.y / r.direction.length sqrt + 1)
    camera.ray_color sqrt world scatter r depth s
      = (1 - a) • (⟨1, 1, 1⟩ : color F) + a • (⟨1 / 2, 7 / 10, 1⟩ : color F) ∧
    (0 ≤ a ∧ a ≤ 1) ∧
    (1 / 2 ≤ (camera.ray_color sqrt world scatter r depth s).x ∧
      (camera.ray_color sqrt world scatter r depth s).x ≤ 1 ∧
      7 / 10 ≤ (camera.ray_color sqrt world scatter r depth s).y ∧
      (camera.ray_color sqrt world scatter r depth s).y ≤ 1 ∧
      1 ≤ (camera.ray_color sqrt world scatter r depth s).z ∧
      (camera.ray_color sqrt world scatter r depth s).z ≤ 1) ∧
    (r.direction.x = 0 → r.direction.z = 0 → 0 < r.direction.y → a = 1) ∧
    (r.direction.x = 0 → r.direction.z = 0 → r.direction.y < 0 → a = 0) := by
  intro a
  have hy := unit_vector_y_eq sqrt r.direction
  have hle := unit_vector_y_le_one hs hdir
  have hge := neg_one_le_unit_vector_y hs hdir
  rw [hy] at hle hge
  have ha0 : 0 ≤ a := by show 0 ≤ (1 / 2) * (r.direction.y / r.direction.length sqrt + 1); linarith
  have ha1 : a ≤ 1 := by show (1 / 2) * (r.direction.y / r.direction.length sqrt + 1) ≤ 1; linarith
  have hc : camera.ray_color sqrt world scatter r depth s
      = (1 - a) • (⟨1, 1, 1⟩ : color F) + a • (⟨1 / 2, 7 / 10, 1⟩ : color F) := by
    unfold camera.ray_color
    rw [camera.ray_color_run_miss sqrt world scatter r s depth (by omega) hmiss]
    show camera.sky sqrt r = _
    unfold camera.sky
    simp only [hy]
  refine ⟨hc, ⟨ha0, ha1⟩, ?_, ?_, ?_⟩
  · rw [hc]
    simp only [vec3.add_x, vec3.add_y, vec3.add_z, vec3.smul_x, vec3.smul_y, vec3.smul_z]
    refine ⟨?_, ?_, ?_, ?_, ?_, ?_⟩ <;> linarith
  · intro hx hz hpos
    have hl := vec3.length_of_vertical hs hx hz
    show (1 / 2) * (r.direction.y / r.direction.length sqrt + 1) = 1
    rw [hl, abs_of_pos hpos, div_self (ne_of_gt hpos)]
    norm_num
  · intro hx hz hneg
    have hl := vec3.length_of_vertical hs hx hz
    show (1 / 2) * (r.direction.y / r.direction.length sqrt + 1) = 0
    rw [hl, abs_of_neg hneg, div_neg, div_self (ne_of_lt hneg)]
    norm_num

theorem up_ray_direction_ne_zero : (up_ray : ray F).direction ≠ 0 := by
  intro h
  have h1 := congrArg vec3.y h
  simp [up_ray, ray.direction] at h1

theorem ground_world_misses_up_ray :
    (ground_world Real.sqrt).hit (up_ray : ray ℝ) camera.ray_t = none := by
  have h : Real.sqrt 1000000 = 1000 := by
    rw [show (1000000 : ℝ) = 1000 ^ 2 by norm_num]
    exact Real.sqrt_sq (by norm_num)
  have h2 : sphere.hit Real.sqrt (ground_sphere : sphere ℝ (material ℝ)) up_ray camera.ray_t
      = none := by
    simp [sphere.hit, vec3.length_squared, dot, ray.direction, ray.origin, ground_sphere,
      up_ray, camera.ray_t, interval.surrounds_fin_inf]
    norm_num [h]
  simp only [ground_world, hittable_list.add, hittable_list.hit, List.nil_append,
    List.foldl_cons, List.foldl_nil, hittable_list.hit_step]
  rw [show (⟨(camera.ray_t : interval ℝ).min, (camera.ray_t : interval ℝ).max⟩ : interval ℝ)
    = camera.ray_t from rfl, h2]
  rfl

/-- C17, on the world of the ground sphere and the ray straight up at depth 50: the ray
misses and the color is `(0.5, 0.7, 1.0)`. -/
theorem ray_color_miss_is_sky_gradient_witness :
    IsSqrt Real.sqrt ∧ (1 : Int) ≤ 50 ∧ (up_ray : ray ℝ).direction ≠ 0 ∧
    (ground_world Real.sqrt).hit (up_ray : ray ℝ) camera.ray_t = none ∧
    camera.ray_color Real.sqrt (ground_world Real.sqrt).hit (mock_scatter Real.sqrt)
      up_ray 50 () = ⟨1 / 2, 7 / 10, 1⟩ := by
  have key := ray_color_miss_is_sky_gradient Real.sqrt real_sqrt_isSqrt
    (ground_world Real.sqrt).hit (mock_scatter Real.sqrt) up_ray 50 () (by decide)
    up_ray_direction_ne_zero ground_world_misses_up_ray
  have ha := key.2.2.2.1 rfl rfl (by simp [up_ray, ray.direction])
  refine ⟨real_sqrt_isSqrt, by decide, up_ray_direction_ne_zero, ground_world_misses_up_ray, ?_⟩
  rw [key.1, ha]
  ext <;> simp

/-- C18: for every initialized camera with `defocus_angle <= 0`, every pixel `(i, j)` and
every pair of draws `r1`, `r2` in `[0, 1)`, `get_ray` returns a ray whose origin is the camera
center, which is `lookfrom`, and whose direction is
`pixel00_loc + (i + r1 - 0.5)*pixel_delta_u + (j + r2 - 0.5)*pixel_delta_v - center`; the
sampled point `origin + direction` is the pixel center plus offsets in `[-0.5, 0.5)` of the
two delta vectors. -/
theorem get_ray_without_defocus [FloorRing F] (sqrt tan degrees_to_radians : F → F)
    (c : camera F) (hdef : c.defocus_angle ≤ 0) (i j : Int) (r1 r2 : F) (p : vec3 F)
    (h1 : 0 ≤ r1 ∧ r1 < 1) (h2 : 0 ≤ r2 ∧ r2 < 1) :
    let cam := c.initialized sqrt tan degrees_to_radians
    (cam.get_ray i j r1 r2 p).origin = cam.center ∧ cam.center = c.lookfrom ∧
    (cam.get_ray i j r1 r2 p).direction =
      cam.pixel00_loc + ((i : F) + r1 - 1 / 2) • cam.pixel_delta_u
        + ((j : F) + r2 - 1 / 2) • cam.pixel_delta_v - cam.center ∧
    (cam.get_ray i j r1 r2 p).at' 1 =
      (cam.pixel00_loc + (i : F) • cam.pixel_delta_u + (j : F) • cam.pixel_delta_v)
        + ((r1 - 1 / 2) • cam.pixel_delta_u + (r2 - 1 / 2) • cam.pixel_delta_v) ∧
    (-(1 / 2) ≤ r1 - 1 / 2 ∧ r1 - 1 / 2 < 1 / 2) ∧
    (-(1 / 2) ≤ r2 - 1 / 2 ∧ r2 - 1 / 2 < 1 / 2) := by
  intro cam
  have hd : cam.defocus_angle ≤ 0 := hdef
  refine ⟨?_, rfl, ?_, ?_, ⟨by linarith [h1.1], by linarith [h1.2]⟩,
    ⟨by linarith [h2.1], by linarith [h2.2]⟩⟩
  · simp only [camera.get_ray, ray.origin, if_pos hd]
  · simp only [camera.get_ray, ray.direction, if_pos hd, camera.pixel_sample_square]
    ext <;> simp only [vec3.add_x, vec3.add_y, vec3.add_z, vec3.sub_x, vec3.sub_y, vec3.sub_z,
      vec3.smul_x, vec3.smul_y, vec3.smul_z] <;> ring
  · simp only [camera.get_ray, ray.at', if_pos hd, camera.pixel_sample_square]
    ext <;> simp only [vec3.add_x, vec3.add_y, vec3.add_z, vec3.sub_x, vec3.sub_y, vec3.sub_z,
      vec3.smul_x, vec3.smul_y, vec3.smul_z] <;> ring

theorem dot_cross_left (a b : vec3 F) : dot (cross a b) a = 0 := by
  simp only [dot, cross]; ring

theorem dot_cross_right (a b : vec3 F) : dot (cross a b) b = 0 := by
  simp only [dot, cross]; ring

theorem dot_comm (a b : vec3 F) : dot a b = dot b a := by
  simp only [dot]; ring

theorem cross_length_squared (a b : vec3 F) :
    (cross a b).length_squared = a.length_squared * b.length_squared - dot a b * dot a b := by
  simp only [vec3.length_squared, dot, cross]; ring

theorem dot_unit_vector_left (sqrt : F → F) (a b : vec3 F) :
    dot (unit_vector sqrt a) b = 1 / a.length sqrt * dot a b := by
  simp only [dot, unit_vector, vec3.div_x, vec3.div_y, vec3.div_z]; ring

theorem vec3.sub_ne_zero {a b : vec3 F} (h : a ≠ b) : a - b ≠ 0 := by
  intro h0
  apply h
  have hx := congrArg vec3.x h0
  have hy := congrArg vec3.y h0
  have hz := congrArg vec3.z h0
  simp only [vec3.sub_x, vec3.sub_y, vec3.sub_z, vec3.zero_x, vec3.zero_y, vec3.zero_z]
    at hx hy hz
  ext
  · exact sub_eq_zero.1 hx
  · exact sub_eq_zero.1 hy
  · exact sub_eq_zero.1 hz

theorem vec3.length_pos {sqrt : F → F} (hs : IsSqrt sqrt) {v : vec3 F} (hv : v ≠ 0) :
    0 < v.length sqrt := by
  have hpos := vec3.length_squared_pos hv
  have h1 := hs.mul_self _ (le_of_lt hpos)
  have h2 := hs.nonneg _ (le_of_lt hpos)
  unfold vec3.length
  rcases lt_or_eq_of_le h2 with h | h
  · exact h
  · rw [← h, mul_zero] at h1
    exact absurd h1.symm (ne_of_gt hpos)

theorem vec3.length_eq_one_of_length_squared {sqrt : F → F} (hs : IsSqrt sqrt) {v : vec3 F}
    (h : v.length_squared = 1) : v.length sqrt = 1 := by
  unfold vec3.length
  rw [h]
  have := hs.sqrt_mul_self (1 : F)
  rwa [mul_one, abs_one] at this

theorem cross_unit_vector_ne_zero {sqrt : F → F} (hs : IsSqrt sqrt) {a d : vec3 F}
    (hd : d ≠ 0) (h : cross a d ≠ 0) : cross a (unit_vector sqrt d) ≠ 0 := by
  intro h0
  apply h
  have hL := ne_of_gt (vec3.length_pos hs hd)
  have hx := congrArg vec3.x h0
  have hy := congrArg vec3.y h0
  have hz := congrArg vec3.z h0
  simp only [cross, unit_vector, vec3.div_x, vec3.div_y, vec3.div_z, vec3.zero_x, vec3.zero_y,
    vec3.zero_z] at hx hy hz
  field_simp at hx hy hz
  ext
  · simpa [cross] using hx
  · simpa [cross] using hy
  · simpa [cross] using hz

/-- C19: for every camera configuration in which `lookfrom` differs from `lookat` and `vup`
is not parallel to `lookfrom - lookat` (their cross product is not zero), the basis
`(u, v, w)` computed by `initialize` is orthonormal: `u`, `v`, `w` have length 1 and are
pairwise orthogonal, and `w` is a positive multiple of `lookfrom - lookat`. -/
theorem camera_basis_is_orthonormal [FloorRing F] (sqrt tan degrees_to_radians : F → F)
    (hs : IsSqrt sqrt) (c : camera F) (hne : c.lookfrom ≠ c.lookat)
    (hup : cross c.vup (c.lookfrom - c.lookat) ≠ 0) :
    let cam := c.initialized sqrt tan degrees_to_radians
    (cam.u.length sqrt = 1 ∧ cam.v.length sqrt = 1 ∧ cam.w.length sqrt = 1) ∧
    (dot cam.u cam.v = 0 ∧ dot cam.v cam.w = 0 ∧ dot cam.w cam.u = 0) ∧
    ∃ k : F, 0 < k ∧ cam.w = k • (c.lookfrom - c.lookat) := by
  intro cam
  have hd : c.lookfrom - c.lookat ≠ 0 := vec3.sub_ne_zero hne
  have hw : cam.w = unit_vector sqrt (c.lookfrom - c.lookat) := rfl
  have hu : cam.u = unit_vector sqrt (cross c.vup cam.w) := rfl
  have hv : cam.v = cross cam.w cam.u := rfl
  have hw1 : cam.w.length_squared = 1 := by rw [hw]; exact unit_vector_length_squared hs hd
  have hcw : cross c.vup cam.w ≠ 0 := by rw [hw]; exact cross_unit_vector_ne_zero hs hd hup
  have hu1 : cam.u.length_squared = 1 := by rw [hu]; exact unit_vector_length_squared hs hcw
  have huw : dot cam.u cam.w = 0 := by
    rw [hu, dot_unit_vector_left, dot_cross_right, mul_zero]
  have hwu : dot cam.w cam.u = 0 := by rw [dot_comm]; exact huw
  have hv1 : cam.v.length_squared = 1 := by
    rw [hv, cross_length_squared, hw1, hu1, hwu]; ring
  refine ⟨⟨vec3.length_eq_one_of_length_squared hs hu1,
    vec3.length_eq_one_of_length_squared hs hv1, vec3.length_eq_one_of_length_squared hs hw1⟩,
    ⟨?_, ?_, hwu⟩, ⟨1 / (c.lookfrom - c.lookat).length sqrt, ?_, rfl⟩⟩
  · rw [hv, dot_comm]; exact dot_cross_right _ _
  · rw [hv]; exact dot_cross_left _ _
  · exact one_div_pos.2 (vec3.length_pos hs hd)

/-- C18, on the default camera, pixel `(3, 4)` and the draws `0.25`, `0.75`. -/
theorem get_ray_without_defocus_witness :
    (camera.default : camera ℝ).defocus_angle ≤ 0 ∧
    ((0 : ℝ) ≤ 1 / 4 ∧ (1 / 4 : ℝ) < 1) ∧ ((0 : ℝ) ≤ 3 / 4 ∧ (3 / 4 : ℝ) < 1) ∧
    (((camera.default : camera ℝ).initialized Real.sqrt Real.tan
        (fun d => d * Real.pi / 180)).get_ray 3 4 (1 / 4) (3 / 4) 0).origin = ⟨0, 0, -1⟩ :=
  have hdef : (camera.default : camera ℝ).defocus_angle ≤ 0 := by simp [camera.default]
  have h1 : (0 : ℝ) ≤ 1 / 4 ∧ (1 / 4 : ℝ) < 1 := by norm_num
  have h2 : (0 : ℝ) ≤ 3 / 4 ∧ (3 / 4 : ℝ) < 1 := by norm_num
  ⟨hdef, h1, h2,
    (get_ray_without_defocus Real.sqrt Real.tan (fun d => d * Real.pi / 180)
      (camera.default : camera ℝ) hdef 3 4 (1 / 4) (3 / 4) 0 h1 h2).1.trans
    (get_ray_without_defocus Real.sqrt Real.tan (fun d => d * Real.pi / 180)
      (camera.default : camera ℝ) hdef 3 4 (1 / 4) (3 / 4) 0 h1 h2).2.1⟩

/-- C19, on the camera of main.cpp. -/
theorem camera_basis_is_orthonormal_witness :
    IsSqrt Real.sqrt ∧ (main_camera : camera ℝ).lookfrom ≠ (main_camera : camera ℝ).lookat ∧
    cross (main_camera : camera ℝ).vup
      ((main_camera : camera ℝ).lookfrom - (main_camera : camera ℝ).lookat) ≠ 0 ∧
    (let cam := (main_camera : camera ℝ).initialized Real.sqrt Real.tan
        (fun d => d * Real.pi / 180)
    (cam.u.length Real.sqrt = 1 ∧ cam.v.length Real.sqrt = 1 ∧ cam.w.length Real.sqrt = 1) ∧
    (dot cam.u cam.v = 0 ∧ dot cam.v cam.w = 0 ∧ dot cam.w cam.u = 0) ∧
    ∃ k : ℝ, 0 < k ∧
      cam.w = k • ((main_camera : camera ℝ).lookfrom - (main_camera : camera ℝ).lookat)) :=
  have hne : (main_camera : camera ℝ).lookfrom ≠ (main_camera : camera ℝ).lookat := by
    intro h
    have hx := congrArg vec3.x h
    simp [main_camera] at hx
  have hup : cross (main_camera : camera ℝ).vup
      ((main_camera : camera ℝ).lookfrom - (main_camera : camera ℝ).lookat) ≠ 0 := by
    intro h
    have hx := congrArg vec3.x h
    simp [main_camera, cross] at hx
  ⟨real_sqrt_isSqrt, hne, hup,
    camera_basis_is_orthonormal Real.sqrt Real.tan (fun d => d * Real.pi / 180)
      real_sqrt_isSqrt main_camera hne hup⟩

theorem hittable_list.hit_cases (l : hittable_list F M) (r : ray F) (ray_t : interval F)
    (hc : ∀ o ∈ l.objects, obeys_hit_contract o r) :
    (l.hit r ray_t = none ∧ ∀ o ∈ l.objects, o r ray_t = none) ∨
    (∃ rec, l.hit r ray_t = some rec ∧
      (∃ o ∈ l.objects, ∃ rec', o r ray_t = some rec' ∧ rec'.t = rec.t) ∧
      ∀ o ∈ l.objects, ∀ rec', o r ray_t = some rec' → rec.t ≤ rec'.t) := by
  have hinv := hit_inv_final l r ray_t hc
  unfold hittable_list.hit
  simp only
  rcases hinv with ⟨h1, _, h3⟩ | ⟨rec, h1, h2, _, _, h5, h6⟩
  · left
    rw [h1]
    exact ⟨rfl, h3⟩
  · right
    rw [h1, h2]
    exact ⟨rec, rfl, h5, h6⟩

/-- C20: for every ray and interval and every two lists of primitives obeying the hit contract
that are permutations of one another, `hittable_list::hit` gives the same hit/no-hit answer
and the same reported `t` on both lists. -/
theorem hittable_list_hit_order_independent (l1 l2 : hittable_list F M) (r : ray F)
    (ray_t : interval F) (hperm : l1.objects.Perm l2.objects)
    (hc : ∀ o ∈ l1.objects, obeys_hit_contract o r) :
    (l1.hit r ray_t).isSome = (l2.hit r ray_t).isSome ∧
    (l1.hit r ray_t).map (fun rec => rec.t) = (l2.hit r ray_t).map (fun rec => rec.t) := by
  have hc2 : ∀ o ∈ l2.objects, obeys_hit_contract o r :=
    fun o ho => hc o (hperm.mem_iff.2 ho)
  rcases hittable_list.hit_cases l1 r ray_t hc with ⟨e1, n1⟩ | ⟨rec1, e1, ⟨o1, ho1, p1, hp1, ht1⟩, m1⟩
  · rcases hittable_list.hit_cases l2 r ray_t hc2 with ⟨e2, _⟩ | ⟨rec2, _, ⟨o2, ho2, p2, hp2, _⟩, _⟩
    · rw [e1, e2]; exact ⟨rfl, rfl⟩
    · rw [n1 o2 (hperm.mem_iff.2 ho2)] at hp2
      cases hp2
  · rcases hittable_list.hit_cases l2 r ray_t hc2 with ⟨_, n2⟩ | ⟨rec2, e2, ⟨o2, ho2, p2, hp2, ht2⟩, m2⟩
    · rw [n2 o1 (hperm.mem_iff.1 ho1)] at hp1
      cases hp1
    · rw [e1, e2]
      have h12 : rec1.t ≤ rec2.t := by
        rw [← ht2]; exact m1 o2 (hperm.mem_iff.2 ho2) p2 hp2
      have h21 : rec2.t ≤ rec1.t := by
        rw [← ht1]; exact m2 o1 (hperm.mem_iff.1 ho1) p1 hp1
      exact ⟨rfl, by simp [le_antisymm h12 h21]⟩

/-- C20, on the two spheres of the test scene added in either order. -/
theorem hittable_list_hit_order_independent_witness :
    (two_sphere_world Real.sqrt : hittable_list ℝ (material ℝ)).objects.Perm
      (swapped_two_sphere_world Real.sqrt).objects ∧
    (∀ o ∈ (two_sphere_world Real.sqrt).objects, obeys_hit_contract o (down_ray : ray ℝ)) ∧
    ((two_sphere_world Real.sqrt).hit (down_ray : ray ℝ) camera.ray_t).isSome
      = ((swapped_two_sphere_world Real.sqrt).hit (down_ray : ray ℝ) camera.ray_t).isSome ∧
    ((two_sphere_world Real.sqrt).hit (down_ray : ray ℝ) camera.ray_t).map (fun rec => rec.t)
      = ((swapped_two_sphere_world Real.sqrt).hit (down_ray : ray ℝ) camera.ray_t).map
        (fun rec => rec.t) :=
  have hperm : (two_sphere_world Real.sqrt : hittable_list ℝ (material ℝ)).objects.Perm
      (swapped_two_sphere_world Real.sqrt).objects := List.Perm.swap _ _ []
  have h : ∀ o ∈ (two_sphere_world Real.sqrt).objects,
      obeys_hit_contract o (down_ray : ray ℝ) := by
    intro o ho
    simp only [two_sphere_world, hittable_list.add, List.nil_append, List.cons_append,
      List.mem_cons, List.mem_singleton, List.not_mem_nil, or_false] at ho
    rcases ho with rfl | rfl
    · exact sphere.hit_obeys_contract real_sqrt_isSqrt _ _ down_ray_direction_ne_zero
    · exact sphere.hit_obeys_contract real_sqrt_isSqrt _ _ down_ray_direction_ne_zero
  ⟨hperm, h, hittable_list_hit_order_independent _ _ down_ray camera.ray_t hperm h⟩

theorem single_root_primitive_reports_inside (r : ray F) :
    reports_inside (single_root_primitive : hittable F Nat) r := by
  intro ray_t rec h
  unfold single_root_primitive at h
  split_ifs at h with h1
  cases h
  exact h1

theorem far_root_first_primitive_reports_inside (r : ray F) :
    reports_inside (far_root_first_primitive : hittable F Nat) r := by
  intro ray_t rec h
  unfold far_root_first_primitive at h
  split_ifs at h with h1 h2
  · cases h; exact h1
  · cases h; exact h2

/-- C21 fails as stated: both primitives report only `t` values strictly inside the interval
they are given, and tested alone over `(0.0001, infinity)` both report the same minimal
`t = 3`; yet the list returns the record of the second member, tagged 2, at `t = 2`, not the
record of the member that comes first. -/
theorem tie_lost_to_far_root_first_primitive :
    (∀ o ∈ (far_root_first_world : hittable_list ℚ Nat).objects, reports_inside o down_ray) ∧
    ((single_root_primitive : hittable ℚ Nat) down_ray camera.ray_t).map
      (fun rec => (rec.mat, rec.t)) = some (1, 3) ∧
    ((far_root_first_primitive : hittable ℚ Nat) down_ray camera.ray_t).map
      (fun rec => (rec.mat, rec.t)) = some (2, 3) ∧
    ((far_root_first_world : hittable_list ℚ Nat).hit down_ray camera.ray_t).map
      (fun rec => (rec.mat, rec.t)) = some (2, 2) := by
  refine ⟨?_, ?_, ?_, ?_⟩
  · intro o ho
    simp only [far_root_first_world, hittable_list.add, List.nil_append, List.cons_append,
      List.mem_cons, List.mem_singleton, List.not_mem_nil, or_false] at ho
    rcases ho with rfl | rfl
    · exact single_root_primitive_reports_inside _
    · exact far_root_first_primitive_reports_inside _
  · simp [single_root_primitive, camera.ray_t, interval.surrounds_fin_inf]
    norm_num
  · simp [far_root_first_primitive, camera.ray_t, interval.surrounds_fin_inf]
    norm_num
  · have h1 : (single_root_primitive : hittable ℚ Nat) down_ray
        ⟨(camera.ray_t : interval ℚ).min, (camera.ray_t : interval ℚ).max⟩
          = some ⟨0, 0, 1, 3, true⟩ := by
      simp [single_root_primitive, camera.ray_t, interval.surrounds_fin_inf]
      norm_num
    have h2 : (far_root_first_primitive : hittable ℚ Nat) down_ray
        ⟨(camera.ray_t : interval ℚ).min, ext.of 3⟩ = some ⟨0, 0, 2, 2, true⟩ := by
      simp [far_root_first_primitive, camera.ray_t, interval.surrounds_fin_fin]
      norm_num
    simp only [far_root_first_world, hittable_list.add, hittable_list.hit, List.nil_append,
      List.cons_append, List.foldl_cons, List.foldl_nil, hittable_list.hit_step, h1, h2]
    rfl

theorem obeys_hit_contract.inside {o : hittable F M} {r : ray F}
    (hc : obeys_hit_contract o r) : reports_inside o r := by
  intro ray_t rec h
  obtain ⟨S, hS⟩ := hc
  have h1 := hS ray_t
  rw [h] at h1
  exact h1.2.1

theorem hittable_list.scan_first_minimal (r : ray F) (ray_t : interval F)
    (objs : List (hittable F M)) (hc : ∀ o ∈ objs, obeys_hit_contract o r) :
    ((hittable_list.scan objs r ray_t).hit_anything = false ∧
      (hittable_list.scan objs r ray_t).closest_so_far = ray_t.max ∧
      ∀ o ∈ objs, o r ray_t = none) ∨
    (∃ rec p1 o p2, objs = p1 ++ o :: p2 ∧
      (hittable_list.scan objs r ray_t).hit_anything = true ∧
      (hittable_list.scan objs r ray_t).rec_out = some rec ∧
      (hittable_list.scan objs r ray_t).closest_so_far = ext.of rec.t ∧
      ext.of rec.t < ray_t.max ∧
      o r ⟨ray_t.min, (hittable_list.scan p1 r ray_t).closest_so_far⟩ = some rec ∧
      (∃ rec', o r ray_t = some rec' ∧ rec'.t = rec.t) ∧
      (∀ o' ∈ p1, ∀ rec', o' r ray_t = some rec' → rec.t < rec'.t) ∧
      (∀ o' ∈ p2, ∀ rec', o' r ray_t = some rec' → rec.t ≤ rec'.t)) := by
  induction objs using List.reverseRecOn with
  | nil => exact Or.inl ⟨rfl, rfl, by simp⟩
  | append_singleton l a ih =>
    have ih' := ih (fun o ho => hc o (List.mem_append_left _ ho))
    have hca := hc a (by simp)
    have hcle : (hittable_list.scan l r ray_t).closest_so_far ≤ ray_t.max := by
      rcases ih' with ⟨_, h2, _⟩ | ⟨rec, _, _, _, _, _, _, h3, h4, _⟩
      · exact le_of_eq h2
      · rw [h3]; exact le_of_lt h4
    have key := contract_shrink hca ray_t _ hcle
    have hsc : hittable_list.scan (l ++ [a]) r ray_t
        = hittable_list.hit_step r ray_t (hittable_list.scan l r ray_t) a := by
      simp [hittable_list.scan, List.foldl_append]
    rw [hsc]
    unfold hittable_list.hit_step
    cases hq : a r ⟨ray_t.min, (hittable_list.scan l r ray_t).closest_so_far⟩ with
    | some temp =>
      rw [hq] at key
      obtain ⟨hlt, rec', hf, ht⟩ := key
      right
      refine ⟨temp, l, a, [], rfl, rfl, rfl, rfl, lt_of_lt_of_le hlt hcle, hq,
        ⟨rec', hf, ht⟩, ?_, by simp⟩
      intro o' ho' rec'' hf'
      rcases ih' with ⟨_, _, h3⟩ | ⟨rec0, p1, o0, p2, hl, _, _, h3, _, _, ⟨q, hq0, hqt⟩, ha, hb⟩
      · rw [h3 o' ho'] at hf'; cases hf'
      · rw [h3] at hlt
        have hlt' : temp.t < rec0.t := ext.of_lt_of.1 hlt
        rw [hl] at ho'
        rcases List.mem_append.1 ho' with hin | hin
        · exact lt_trans hlt' (ha o' hin rec'' hf')
        · rcases List.mem_cons.1 hin with hin | hin
          · subst hin
            rw [hq0] at hf'
            cases hf'
            rw [hqt]; exact hlt'
          · exact lt_of_lt_of_le hlt' (hb o' hin rec'' hf')
    | none =>
      rw [hq] at key
      simp only
      rcases ih' with ⟨h1, h2, h3⟩ | ⟨rec0, p1, o0, p2, hl, h1, h2, h3, h4, h5, h6, ha, hb⟩
      · left
        refine ⟨h1, h2, ?_⟩
        intro o' ho'
        rcases List.mem_append.1 ho' with hin | hin
        · exact h3 o' hin
        · rw [List.mem_singleton] at hin
          subst hin
          cases hf : o' r ray_t with
          | none => rfl
          | some rec' =>
            have h7 := key rec' hf
            have h9 := ((interval.surrounds_iff _ _).1 (hca.inside ray_t rec' hf)).2
            rw [h2] at h7
            exact absurd h9 (not_lt.2 h7)
      · right
        refine ⟨rec0, p1, o0, p2 ++ [a], by simp [hl], h1, h2, h3, h4, h5, h6, ha, ?_⟩
        intro o' ho' rec'' hf'
        rcases List.mem_append.1 ho' with hin | hin
        · exact hb o' hin rec'' hf'
        · rw [List.mem_singleton] at hin
          subst hin
          have h7 := key rec'' hf'
          rw [h3] at h7
          simpa [ext.of] using h7

/-- C21, amended: for every ray, interval and list of primitives obeying the hit contract,
whenever `hittable_list::hit` reports a hit, the returned record is the one written, at its
turn, by the first member whose individual `t` is the minimal one: every earlier member
reports individually a strictly larger `t` or nothing, no later member reports a smaller one,
so among members that tie the first one wins; and a later candidate replaces the current best
only if its `t` is strictly less than `closest_so_far`. -/
theorem hittable_list_hit_first_of_tied_members (l : hittable_list F M) (r : ray F)
    (ray_t : interval F) (hc : ∀ o ∈ l.objects, obeys_hit_contract o r)
    (rec : hit_record F M) (h : l.hit r ray_t = some rec) :
    (∃ p1 o p2, l.objects = p1 ++ o :: p2 ∧
      o r ⟨ray_t.min, (hittable_list.scan p1 r ray_t).closest_so_far⟩ = some rec ∧
      (∃ rec', o r ray_t = some rec' ∧ rec'.t = rec.t) ∧
      (∀ o' ∈ p1, ∀ rec', o' r ray_t = some rec' → rec.t < rec'.t) ∧
      (∀ o' ∈ p2, ∀ rec', o' r ray_t = some rec' → rec.t ≤ rec'.t)) ∧
    (∀ (st : hit_state F M), ∀ o ∈ l.objects,
      (hittable_list.hit_step r ray_t st o).rec_out ≠ st.rec_out →
      ∃ temp_rec, (hittable_list.hit_step r ray_t st o).rec_out = some temp_rec ∧
        ext.of temp_rec.t < st.closest_so_far) := by
  constructor
  · have hs := hittable_list.scan_first_minimal r ray_t l.objects hc
    have hh : l.hit r ray_t = if (hittable_list.scan l.objects r ray_t).hit_anything = true
        then (hittable_list.scan l.objects r ray_t).rec_out else none := rfl
    rw [hh] at h
    rcases hs with ⟨h1, _, _⟩ | ⟨rec0, p1, o, p2, hl, h1, h2, _, _, h5, h6, ha, hb⟩
    · rw [h1] at h; simp at h
    · rw [h1, h2] at h
      simp only [if_true, Option.some.injEq] at h
      subst h
      exact ⟨p1, o, p2, hl, h5, h6, ha, hb⟩
  · intro st o ho hne
    unfold hittable_list.hit_step at hne ⊢
    cases hq : o r ⟨ray_t.min, st.closest_so_far⟩ with
    | none => rw [hq] at hne; exact absurd rfl hne
    | some temp =>
      have hin := (hc o ho).inside _ _ hq
      exact ⟨temp, rfl, ((interval.surrounds_iff _ _).1 hin).2⟩

theorem tie_world_hit_down_ray :
    (tie_world Real.sqrt).hit (down_ray : ray ℝ) camera.ray_t
      = some (sphere.record ground_sphere down_ray 5) := by
  have h : Real.sqrt 1000000 = 1000 := by
    rw [show (1000000 : ℝ) = 1000 ^ 2 by norm_num]
    exact Real.sqrt_sq (by norm_num)
  have h1 : sphere.hit Real.sqrt (ground_sphere : sphere ℝ (material ℝ)) down_ray
      ⟨(camera.ray_t : interval ℝ).min, (camera.ray_t : interval ℝ).max⟩
        = some (sphere.record ground_sphere down_ray 5) := ground_sphere_hit_down_ray
  have h2 : sphere.hit Real.sqrt (glass_ground_sphere : sphere ℝ (material ℝ)) down_ray
      ⟨(camera.ray_t : interval ℝ).min,
        ext.of (sphere.record (ground_sphere : sphere ℝ (material ℝ)) down_ray 5).t⟩
        = none := by
    simp [sphere.hit, vec3.length_squared, dot, ray.direction, ray.origin, glass_ground_sphere,
      down_ray, camera.ray_t, interval.surrounds_fin_fin]
    norm_num [h]
  simp only [tie_world, hittable_list.add, hittable_list.hit, List.nil_append,
    List.cons_append, List.foldl_cons, List.foldl_nil, hittable_list.hit_step, h1, h2]
  rfl

/-- C21 amended, on the ground sphere and its glass twin, which tie at `t = 5` for the ray
straight down: the list returns the record of the lambertian ground sphere, the first. -/
theorem hittable_list_hit_first_of_tied_members_witness :
    (∀ o ∈ (tie_world Real.sqrt).objects, obeys_hit_contract o (down_ray : ray ℝ)) ∧
    (tie_world Real.sqrt).hit (down_ray : ray ℝ) camera.ray_t
      = some (sphere.record ground_sphere down_ray 5) ∧
    (sphere.record (ground_sphere : sphere ℝ (material ℝ)) down_ray 5).mat
      = material.lambertian ⟨⟨1 / 2, 1 / 2, 1 / 2⟩⟩ ∧
    ∃ p1 o p2, (tie_world Real.sqrt).objects = p1 ++ o :: p2 ∧
      o (down_ray : ray ℝ)
        ⟨(camera.ray_t : interval ℝ).min, (hittable_list.scan p1 down_ray camera.ray_t).closest_so_far⟩
        = some (sphere.record ground_sphere down_ray 5) ∧
      (∃ rec', o (down_ray : ray ℝ) camera.ray_t = some rec' ∧
        rec'.t = (sphere.record (ground_sphere : sphere ℝ (material ℝ)) down_ray 5).t) ∧
      (∀ o' ∈ p1, ∀ rec', o' (down_ray : ray ℝ) camera.ray_t = some rec' →
        (sphere.record (ground_sphere : sphere ℝ (material ℝ)) down_ray 5).t < rec'.t) ∧
      (∀ o' ∈ p2, ∀ rec', o' (down_ray : ray ℝ) camera.ray_t = some rec' →
        (sphere.record (ground_sphere : sphere ℝ (material ℝ)) down_ray 5).t ≤ rec'.t) :=
  have hc : ∀ o ∈ (tie_world Real.sqrt).objects, obeys_hit_contract o (down_ray : ray ℝ) := by
    intro o ho
    simp only [tie_world, hittable_list.add, List.nil_append, List.cons_append,
      List.mem_cons, List.mem_singleton, List.not_mem_nil, or_false] at ho
    rcases ho with rfl | rfl
    · exact sphere.hit_obeys_contract real_sqrt_isSqrt _ _ down_ray_direction_ne_zero
    · exact sphere.hit_obeys_contract real_sqrt_isSqrt _ _ down_ray_direction_ne_zero
  ⟨hc, tie_world_hit_down_ray, rfl,
    (hittable_list_hit_first_of_tied_members (tie_world Real.sqrt) down_ray camera.ray_t hc _
      tie_world_hit_down_ray).1⟩

theorem camera.sky_in_unit_range {sqrt : F → F} (hs : IsSqrt sqrt) {r : ray F}
    (hdir : r.direction ≠ 0) : color_in_unit_range (camera.sky sqrt r) := by
  have hle := unit_vector_y_le_one hs hdir
  have hge := neg_one_le_unit_vector_y hs hdir
  unfold color_in_unit_range camera.sky
  simp only [vec3.add_x, vec3.add_y, vec3.add_z, vec3.smul_x, vec3.smul_y, vec3.smul_z]
  refine ⟨⟨?_, ?_⟩, ⟨?_, ?_⟩, ⟨?_, ?_⟩⟩ <;> linarith

theorem color_in_unit_range_black : color_in_unit_range (⟨0, 0, 0⟩ : color F) := by
  unfold color_in_unit_range
  simp

theorem color_in_unit_range_mul {a b : color F} (ha : color_in_unit_range a)
    (hb : color_in_unit_range b) : color_in_unit_range (a * b) := by
  obtain ⟨⟨a1, a2⟩, ⟨a3, a4⟩, ⟨a5, a6⟩⟩ := ha
  obtain ⟨⟨b1, b2⟩, ⟨b3, b4⟩, ⟨b5, b6⟩⟩ := hb
  unfold color_in_unit_range
  simp only [vec3.mul_x, vec3.mul_y, vec3.mul_z]
  exact ⟨⟨mul_nonneg a1 b1, mul_le_one₀ a2 b1 b2⟩, ⟨mul_nonneg a3 b3, mul_le_one₀ a4 b3 b4⟩,
    ⟨mul_nonneg a5 b5, mul_le_one₀ a6 b5 b6⟩⟩

theorem camera.ray_color_run_in_unit_range {sqrt : F → F} (hs : IsSqrt sqrt)
    (world : hittable F M) (scatter : M → ray F → hit_record F M → σ → scatter_result F × σ)
    (hsc : ∀ (r_in : ray F) (rec : hit_record F M) (s : σ), r_in.direction ≠ 0 →
      world r_in camera.ray_t = some rec → (scatter rec.mat r_in rec s).1.ok = true →
      color_in_unit_range (scatter rec.mat r_in rec s).1.attenuation ∧
        (scatter rec.mat r_in rec s).1.scattered.direction ≠ 0) :
    ∀ (n : Nat) (depth : Int) (r : ray F) (s : σ), depth.toNat ≤ n → r.direction ≠ 0 →
      color_in_unit_range (camera.ray_color_run sqrt world scatter r depth s).color := by
  intro n
  induction n with
  | zero =>
    intro depth r s hn _
    have hd : depth ≤ 0 := by omega
    rw [camera.ray_color_run, if_pos hd]
    exact color_in_unit_range_black
  | succ n ih =>
    intro depth r s hn hdir
    rw [camera.ray_color_run]
    by_cases hd : depth ≤ 0
    · rw [if_pos hd]; exact color_in_unit_range_black
    · rw [if_neg hd]
      cases hw : world r camera.ray_t with
      | none => exact camera.sky_in_unit_range hs hdir
      | some rec =>
        simp only
        by_cases hok : (scatter rec.mat r rec s).1.ok = true
        · rw [if_pos hok]
          obtain ⟨hatt, hne⟩ := hsc r rec s hdir hw hok
          exact color_in_unit_range_mul hatt
            (ih (depth - 1) _ _ (by omega) hne)
        · rw [if_neg hok]; exact color_in_unit_range_black

/-- C22: for every scene in which every scatter that the scene's hits lead to returns an
attenuation with all components in `[0, 1]` and a scattered ray of non-zero direction, for
every ray with non-zero direction and every integer depth, each component of
`ray_color(ray, depth, scene)` lies in `[0, 1]`. -/
theorem ray_color_components_in_unit_range (sqrt : F → F) (hs : IsSqrt sqrt)
    (world : hittable F M) (scatter : M → ray F → hit_record F M → σ → scatter_result F × σ)
    (hsc : ∀ (r_in : ray F) (rec : hit_record F M) (s : σ), r_in.direction ≠ 0 →
      world r_in camera.ray_t = some rec → (scatter rec.mat r_in rec s).1.ok = true →
      color_in_unit_range (scatter rec.mat r_in rec s).1.attenuation ∧
        (scatter rec.mat r_in rec s).1.scattered.direction ≠ 0)
    (r : ray F) (hdir : r.direction ≠ 0) (depth : Int) (s : σ) :
    (0 ≤ (camera.ray_color sqrt world scatter r depth s).x ∧
      (camera.ray_color sqrt world scatter r depth s).x ≤ 1) ∧
    (0 ≤ (camera.ray_color sqrt world scatter r depth s).y ∧
      (camera.ray_color sqrt world scatter r depth s).y ≤ 1) ∧
    (0 ≤ (camera.ray_color sqrt world scatter r depth s).z ∧
      (camera.ray_color sqrt world scatter r depth s).z ≤ 1) :=
  camera.ray_color_run_in_unit_range hs world scatter hsc depth.toNat depth r s le_rfl hdir

theorem sphere.hit_mat {sqrt : F → F} {s : sphere F M} {r : ray F} {ray_t : interval F}
    {rec : hit_record F M} (h : s.hit sqrt r ray_t = some rec) : rec.mat = s.mat := by
  unfold sphere.hit at h
  simp only at h
  split_ifs at h
  · cases h; rfl
  · cases h; rfl

theorem mirror_sphere_scatter_in_range (r_in : ray ℝ) (rec : hit_record ℝ (material ℝ))
    (s : Unit) (_hdir : r_in.direction ≠ 0)
    (hw : sphere.hit Real.sqrt mirror_sphere r_in camera.ray_t = some rec)
    (hok : (mock_scatter Real.sqrt rec.mat r_in rec s).1.ok = true) :
    color_in_unit_range (mock_scatter Real.sqrt rec.mat r_in rec s).1.attenuation ∧
      (mock_scatter Real.sqrt rec.mat r_in rec s).1.scattered.direction ≠ 0 := by
  have hm : rec.mat = material.metal (metal.make ⟨7 / 10, 6 / 10, 5 / 10⟩ 0) :=
    sphere.hit_mat hw
  rw [hm] at hok ⊢
  refine ⟨?_, metal_scattered_ne_zero Real.sqrt _ r_in rec ⟨1, 0, 0⟩ hok⟩
  simp only [mock_scatter, material.scatter, metal.scatter, metal.make, color_in_unit_range]
  norm_num

/-- C22, on the mirror sphere of main.cpp, the mocked random source and the ray straight down
at depth 50. -/
theorem ray_color_components_in_unit_range_witness :
    IsSqrt Real.sqrt ∧ (down_ray : ray ℝ).direction ≠ 0 ∧
    (∀ (r_in : ray ℝ) (rec : hit_record ℝ (material ℝ)) (s : Unit), r_in.direction ≠ 0 →
      sphere.hit Real.sqrt mirror_sphere r_in camera.ray_t = some rec →
      (mock_scatter Real.sqrt rec.mat r_in rec s).1.ok = true →
      color_in_unit_range (mock_scatter Real.sqrt rec.mat r_in rec s).1.attenuation ∧
        (mock_scatter Real.sqrt rec.mat r_in rec s).1.scattered.direction ≠ 0) ∧
    ((0 ≤ (camera.ray_color Real.sqrt (sphere.hit Real.sqrt mirror_sphere)
        (mock_scatter Real.sqrt) down_ray 50 ()).x ∧
      (camera.ray_color Real.sqrt (sphere.hit Real.sqrt mirror_sphere)
        (mock_scatter Real.sqrt) down_ray 50 ()).x ≤ 1) ∧
    (0 ≤ (camera.ray_color Real.sqrt (sphere.hit Real.sqrt mirror_sphere)
        (mock_scatter Real.sqrt) down_ray 50 ()).y ∧
      (camera.ray_color Real.sqrt (sphere.hit Real.sqrt mirror_sphere)
        (mock_scatter Real.sqrt) down_ray 50 ()).y ≤ 1) ∧
    (0 ≤ (camera.ray_color Real.sqrt (sphere.hit Real.sqrt mirror_sphere)
        (mock_scatter Real.sqrt) down_ray 50 ()).z ∧
      (camera.ray_color Real.sqrt (sphere.hit Real.sqrt mirror_sphere)
        (mock_scatter Real.sqrt) down_ray 50 ()).z ≤ 1)) :=
  ⟨real_sqrt_isSqrt, down_ray_direction_ne_zero, mirror_sphere_scatter_in_range,
    ray_color_components_in_unit_range Real.sqrt real_sqrt_isSqrt
      (sphere.hit Real.sqrt mirror_sphere) (mock_scatter Real.sqrt)
      mirror_sphere_scatter_in_range down_ray down_ray_direction_ne_zero 50 ()⟩

/-- C23: for every initialized camera, every pixel `(i, j)`, every pixel jitter (the value of
`pixel_sample_square()` for the draws `r1`, `r2`) and every defocus-disk sample, whatever
`defocus_angle` is, the ray `r` returned by `get_ray` satisfies
`r.at(1) = pixel00_loc + i*pixel_delta_u + j*pixel_delta_v + jitter`; two rays that differ
only in the defocus-disk sample pass through the same point at `t = 1`. -/
theorem get_ray_at_one_is_pixel_sample [FloorRing F] (sqrt tan degrees_to_radians : F → F)
    (c : camera F) (i j : Int) (r1 r2 : F) (p q : vec3 F) :
    let cam := c.initialized sqrt tan degrees_to_radians
    (cam.get_ray i j r1 r2 p).at' 1 =
      cam.pixel00_loc + (i : F) • cam.pixel_delta_u + (j : F) • cam.pixel_delta_v
        + cam.pixel_sample_square r1 r2 ∧
    (cam.get_ray i j r1 r2 p).at' 1 = (cam.get_ray i j r1 r2 q).at' 1 := by
  intro cam
  have key : ∀ p' : vec3 F, (cam.get_ray i j r1 r2 p').at' 1 =
      cam.pixel00_loc + (i : F) • cam.pixel_delta_u + (j : F) • cam.pixel_delta_v
        + cam.pixel_sample_square r1 r2 := by
    intro p'
    simp only [camera.get_ray, ray.at']
    generalize (if cam.defocus_angle ≤ 0 then cam.center else cam.defocus_disk_sample p') = o
    ext <;> simp only [vec3.add_x, vec3.add_y, vec3.add_z, vec3.sub_x, vec3.sub_y, vec3.sub_z,
      vec3.smul_x, vec3.smul_y, vec3.smul_z] <;> ring
  exact ⟨key p, (key p).trans (key q).symm⟩

end Raytracer
